import Mathlib

/-! Verification of the brokerage-account engine of this repository
(`src/bankaccounts/src/accounts.rs`, struct `BrokerageAccount` and its
`Account` trait implementation).

Modelling conventions.
Monetary values and share counts, `f64` in the source, are modelled as exact
rationals.  Timestamps and the free-text transaction notes, on which no
verified property depends, are omitted from the `Transaction` record.
Division by zero follows the Lean convention `x / 0 = 0`; every place where the
source can actually divide by zero is discussed at the theorem that depends on
it.  A Rust `panic` (a failed `expect` or assertion) is modelled by the
`Res.fatal` constructor.  Debug assertions of the source that are arithmetic
identities in exact arithmetic (the four assertions in `buy`, the balance
assertion in `soft_rebalance`) are either modelled as `Res.fatal` branches or
proved to hold in dedicated lemmas, as noted at each definition. -/

namespace Bank

inductive TransactionType where
  | Deposit | Withdrawal | Interest | UnrealizedGain | Fee | Tax | Sale | Purchase
deriving DecidableEq, Repr

/-- One ledger entry: `Transaction` of the source without timestamp and
description, which no claim mentions. -/
structure Transaction where
  transaction_type : TransactionType
  amount : ℚ
deriving DecidableEq, Repr

inductive AssetClass where
  | Equity | Bond | Other
deriving DecidableEq, Repr

/-- A purchase lot: `Asset` of the source. -/
structure Asset where
  symbol : String
  shares : ℚ
  cost_basis : ℚ
  current_price : ℚ
  asset_class : AssetClass
deriving DecidableEq, Repr

/-- `Asset::get_value`. -/
def Asset.get_value (a : Asset) : ℚ := a.shares * a.current_price

/-- `Asset::get_rate_of_return`. -/
def Asset.get_rate_of_return (a : Asset) : ℚ :=
  match a.asset_class with
  | .Equity => 10
  | .Bond => 3.5
  | .Other => 0

/-- The `BrokerageAccount` struct of the source. -/
structure BrokerageAccount where
  name : String
  starting_balance : ℚ
  cash_balance : ℚ
  cash_interest : ℚ
  assets : List Asset
  transactions : List Transaction
deriving DecidableEq, Repr

/-- Errors of `errors.rs` used by the account engine. -/
inductive DepositError where
  | NegativeAmount (amount : ℚ)
deriving DecidableEq, Repr

inductive WithdrawalError where
  | InsufficientFunds (requested available : ℚ)
  | NegativeAmount (amount : ℚ)
deriving DecidableEq, Repr

/-- Outcome of a mutating operation: `fatal` models a Rust panic (failed
`expect`/assertion); `err`/`ok` carry the account state the caller is left
with, since in Rust the mutated `self` survives an `Err` return. -/
inductive Res (ε α : Type) where
  | fatal : Res ε α
  | err (e : ε) (s : BrokerageAccount) : Res ε α
  | ok (v : α) (s : BrokerageAccount) : Res ε α
deriving DecidableEq, Repr

/-- The Rust `?` operator on an intermediate call: an `Err` (with the state
the callee left) or a panic propagates, an `Ok` continues. -/
def res_bind {ε α β : Type} (r : Res ε α)
    (f : α → BrokerageAccount → Res ε β) : Res ε β :=
  match r with
  | .fatal => .fatal
  | .err e st => .err e st
  | .ok v st => f v st

/-- Total value of a list of lots (the source folds `get_value` over vectors
in several places). -/
def sum_value (l : List Asset) : ℚ := (l.map Asset.get_value).sum

def sum_shares (l : List Asset) : ℚ := (l.map Asset.shares).sum

def sum_cost_basis (l : List Asset) : ℚ := (l.map Asset.cost_basis).sum

namespace BrokerageAccount

/-- `BrokerageAccount::new`. -/
def new (name : String) (starting_balance cash_interest : ℚ) : BrokerageAccount :=
  { name, starting_balance, cash_interest,
    cash_balance := starting_balance, assets := [], transactions := [] }

/-- `Account::get_balance` for `BrokerageAccount`: a fold of
`cash_balance + Σ shares * current_price`. -/
def get_balance (s : BrokerageAccount) : ℚ :=
  s.assets.foldl (fun acc a => acc + a.shares * a.current_price) s.cash_balance

/-- `Account::get_cash_balance` for `BrokerageAccount`. -/
def get_cash_balance (s : BrokerageAccount) : ℚ := s.cash_balance

/-- `BrokerageAccount::get_assets_of_type`: filter by discriminant equality
(for a fieldless-variant tag this is equality of the class). -/
def get_assets_of_type (s : BrokerageAccount) (cls : AssetClass) : List Asset :=
  s.assets.filter (fun a => decide (a.asset_class = cls))

/-- `BrokerageAccount::has_enough_cash`. -/
def has_enough_cash (s : BrokerageAccount) (amount : ℚ) : Bool :=
  decide (s.get_cash_balance - amount > 0.001)

/-- `BrokerageAccount::get_asset_alloc`.  The source folds the per-class
values; `sum_value` is that fold. -/
def get_asset_alloc (s : BrokerageAccount) : ℚ × ℚ × ℚ :=
  let total_bal := s.get_balance
  let cash_bal := s.cash_balance
  let bond_bal := sum_value (s.get_assets_of_type .Bond)
  let equity_bal := sum_value (s.get_assets_of_type .Equity)
  (cash_bal / total_bal, equity_bal / total_bal, bond_bal / total_bal)

/-- Sum of the amounts of the ledger entries of one type in a transaction
list. -/
def txns_total (l : List Transaction) (t : TransactionType) : ℚ :=
  ((l.filter (fun tr => decide (tr.transaction_type = t))).map
    Transaction.amount).sum

/-- Per-type total of the ledger; this is what `summarize_transactions`
(a `HashMap` of per-type totals) provides to `validate_balance`. -/
def total_of_type (s : BrokerageAccount) (t : TransactionType) : ℚ :=
  txns_total s.transactions t

/-- The balance that `Account::validate_balance` expects:
start + (deposits + interest + unrealized gains) - (withdrawals + tax + fees). -/
def expected_balance (s : BrokerageAccount) : ℚ :=
  let total_in := s.total_of_type .Deposit + s.total_of_type .Interest +
    s.total_of_type .UnrealizedGain
  let total_out := s.total_of_type .Withdrawal + s.total_of_type .Tax +
    s.total_of_type .Fee
  s.starting_balance + total_in - total_out

/-- `Account::validate_balance`, `true` for `Ok(())` and `false` for the
`Err(mismatch description)` case; the claims only depend on which of the two
is returned. -/
def validate_balance (s : BrokerageAccount) : Bool :=
  decide (|s.get_balance - s.expected_balance| < 0.015)

/-- Ticker symbol chosen by `buy` for each class. -/
def symbol_of (cls : AssetClass) : String :=
  match cls with
  | .Equity => "STK"
  | .Bond => "BND"
  | .Other => "OTH"

/-- `BrokerageAccount::buy`.  The source pushes the `Purchase` transaction and
then the new lot, and between the mutation and `Ok` runs four debug
assertions that compare exact quantities (balance difference rounds to zero,
purchase/asset/cost-basis deltas within 0.01); in exact arithmetic each is an
identity, proved below in `buy_internal_assertions`, so they are not modelled
as `fatal` branches. -/
def buy (s : BrokerageAccount) (shares price : ℚ) (cls : AssetClass) :
    Res WithdrawalError ℚ :=
  let amount := price * shares
  if !s.has_enough_cash amount then
    .err (.InsufficientFunds amount s.get_cash_balance) s
  else
    let new_asset : Asset :=
      { symbol := symbol_of cls, shares, cost_basis := amount,
        current_price := price, asset_class := cls }
    .ok amount
      { s with cash_balance := s.cash_balance - amount,
               transactions := s.transactions ++
                 [{ transaction_type := .Purchase, amount }],
               assets := s.assets ++ [new_asset] }

/-- `BrokerageAccount::calc_cap_gains_tax`. -/
def calc_cap_gains_tax (assets_to_sell : List (Asset × ℚ)) : ℚ :=
  let cap_gains := assets_to_sell.foldl
    (fun acc p => acc + p.2 * (p.1.current_price - p.1.cost_basis / p.1.shares)) 0
  max (cap_gains * 0.15) 0

end BrokerageAccount

/-- The comparison key of the sort in `sell`:
`(current_price - cost_basis) / cost_basis` (note: the total `cost_basis` of
the lot, not a per-share cost). -/
def gain_rate (a : Asset) : ℚ := (a.current_price - a.cost_basis) / a.cost_basis

/-- The sort in `sell`: ascending by `gain_rate`.  Rust `sort_by` is a stable
sort and its comparator (`partial_cmp(...).unwrap()`) is the total order of
the key on the rationals, so a stable insertion sort models it exactly. -/
def sort_lots (l : List Asset) : List Asset :=
  List.insertionSort (fun a b => gain_rate a ≤ gain_rate b) l

/-- Result of the lot-consuming loop in `sell`. -/
structure LoopOut where
  cash_raised : ℚ
  to_sell : List (Asset × ℚ)
  to_keep : List Asset
deriving DecidableEq, Repr

/-- The `for mut asset in assets_of_class` loop of `sell`, with the three
accumulators `cash_raised`, `assets_to_sell`, `assets_to_keep`. -/
def sell_loop (amount : ℚ) : List Asset → ℚ → LoopOut
  | [], cash_raised => { cash_raised, to_sell := [], to_keep := [] }
  | a :: rest, cash_raised =>
    if amount ≤ cash_raised then
      let r := sell_loop amount rest cash_raised
      { r with to_keep := a :: r.to_keep }
    else
      let asset_value := a.get_value
      let remaining_needed := amount - cash_raised
      if asset_value ≤ remaining_needed then
        let r := sell_loop amount rest (cash_raised + asset_value)
        { r with to_sell := (a, a.shares) :: r.to_sell }
      else
        let shares_to_sell := remaining_needed / a.current_price
        let shares_to_keep := a.shares - shares_to_sell
        let sold_asset : Asset :=
          { a with shares := shares_to_sell,
                   cost_basis := a.cost_basis * (shares_to_sell / a.shares) }
        let kept_asset : Asset :=
          { a with shares := shares_to_keep,
                   cost_basis := a.cost_basis * (shares_to_keep / a.shares) }
        let r := sell_loop amount rest (cash_raised + shares_to_sell * a.current_price)
        { r with to_sell := (sold_asset, shares_to_sell) :: r.to_sell,
                 to_keep := kept_asset :: r.to_keep }

namespace BrokerageAccount

/-- `BrokerageAccount::liquidate`.  The source loop pushes one `Sale`
transaction per lot and credits each value; modelled as a bulk map and sum.
The source constructs only `Ok`, so the vestigial `Result` wrapper is dropped
and the function returns the pair (net proceeds, new state). -/
def liquidate (s : BrokerageAccount) : ℚ × BrokerageAccount :=
  let all_assets := s.assets
  let share_tuples := all_assets.map (fun a => (a, a.shares))
  let tax := calc_cap_gains_tax share_tuples
  let proceeds := sum_value all_assets
  let s1 : BrokerageAccount :=
    { s with assets := [],
             cash_balance := s.cash_balance + proceeds,
             transactions := s.transactions ++ all_assets.map
               (fun a => { transaction_type := .Sale, amount := a.get_value }) }
  let s2 := if 0 < tax then
      { s1 with cash_balance := s1.cash_balance - tax,
                transactions := s1.transactions ++
                  [{ transaction_type := .Tax, amount := tax }] }
    else s1
  (proceeds - tax, s2)

/-- The straight-line body of `BrokerageAccount::sell` after its two entry
guards, applied to `self` as it stands after the optional `liquidate` call.
Rust `partition` splits the drained lot vector into the lots of the requested
class and the rest, both in original order: the two filters.  The `expect`
call on `validate_balance` after restoring lots in the shortfall path and the
final one before `Ok` are modelled as `fatal` branches. -/
def sell_core (s : BrokerageAccount) (amount : ℚ) (cls : AssetClass) :
    Res WithdrawalError ℚ :=
  let assets_of_class := s.assets.filter (fun a => decide (a.asset_class = cls))
  let other_assets := s.assets.filter (fun a => !decide (a.asset_class = cls))
  let sorted := sort_lots assets_of_class
  let L := sell_loop amount sorted 0
  if L.cash_raised < amount then
    let s2 : BrokerageAccount :=
      { s with assets := other_assets ++ L.to_keep ++ L.to_sell.map Prod.fst }
    if s2.validate_balance = false then .fatal
    else .err (.InsufficientFunds amount L.cash_raised) s2
  else
    let tax := calc_cap_gains_tax L.to_sell
    if s.cash_balance < tax then
      .err (.InsufficientFunds tax s.cash_balance)
        { s with assets := other_assets ++ L.to_keep ++ L.to_sell.map Prod.fst }
    else
      let s3 := if 0 < tax then
          { s with cash_balance := s.cash_balance - tax,
                   transactions := s.transactions ++
                     [{ transaction_type := .Tax, amount := tax }] }
        else s
      let s4 : BrokerageAccount :=
        { s3 with
          cash_balance := s3.cash_balance + amount,
          transactions := s3.transactions ++ L.to_sell.map
            (fun p => { transaction_type := .Sale,
                        amount := p.2 * p.1.current_price }),
          assets := other_assets ++ L.to_keep }
      if s4.validate_balance = false then .fatal
      else .ok amount s4

/-- `BrokerageAccount::sell`: the entry `expect` on `validate_balance`
(modelled as a `fatal` branch), the negative-amount guard, the liquidation of
the whole account when `amount` exceeds the total balance, then the
straight-line body `sell_core`. -/
def sell (s0 : BrokerageAccount) (amount : ℚ) (cls : AssetClass) :
    Res WithdrawalError ℚ :=
  if s0.validate_balance = false then .fatal
  else if amount < 0 then .err (.NegativeAmount amount) s0
  else sell_core (if amount > s0.get_balance then (s0.liquidate).2 else s0)
    amount cls

/-- `Account::deposit` for `BrokerageAccount`. -/
def deposit (s : BrokerageAccount) (amount : ℚ) : Res DepositError ℚ :=
  if amount < 0 then .err (.NegativeAmount amount) s
  else
    .ok amount
      { s with cash_balance := s.cash_balance + amount,
               transactions := s.transactions ++
                 [{ transaction_type := .Deposit, amount }] }

/-- The final cash debit and `Withdrawal` ledger entry of `withdraw`. -/
def withdraw_commit (s : BrokerageAccount) (amount : ℚ) : BrokerageAccount :=
  { s with cash_balance := s.cash_balance - amount,
           transactions := s.transactions ++
             [{ transaction_type := .Withdrawal, amount }] }

/-- `Account::withdraw` for `BrokerageAccount`: on a cash shortfall it sells
`shortfall * 1.15` of Equity and re-checks before committing. -/
def withdraw (s : BrokerageAccount) (amount : ℚ) : Res WithdrawalError ℚ :=
  if amount < 0 then .err (.NegativeAmount amount) s
  else if !s.has_enough_cash amount then
    res_bind (s.sell ((amount - s.get_cash_balance) * 1.15) .Equity)
      (fun _ s1 =>
        if !s1.has_enough_cash amount then
          .err (.InsufficientFunds amount s1.cash_balance) s1
        else .ok amount (withdraw_commit s1 amount))
  else .ok amount (withdraw_commit s amount)

end BrokerageAccount

/-- Price bump of one accrual period:
`price *= 1 + rate_of_return / 100`. -/
def Asset.accrue_price (a : Asset) : Asset :=
  { a with current_price := a.current_price * (1 + a.get_rate_of_return / 100) }

namespace BrokerageAccount

/-- `Account::accrue` for `BrokerageAccount`: cash interest (credited and
logged only if positive), then the per-lot price bump whose summed value
deltas are `period_gains` (logged only if positive).  Returns
`interest + period_gains` beside the new state. -/
def accrue (s : BrokerageAccount) : ℚ × BrokerageAccount :=
  let interest_amount := s.cash_balance * (s.cash_interest / 100)
  let s1 := if 0 < interest_amount then
      { s with cash_balance := s.cash_balance + interest_amount,
               transactions := s.transactions ++
                 [{ transaction_type := .Interest, amount := interest_amount }] }
    else s
  let period_gains :=
    (s1.assets.map (fun a => (Asset.accrue_price a).get_value - a.get_value)).sum
  let s2 := { s1 with assets := s1.assets.map Asset.accrue_price }
  let s3 := if 0 < period_gains then
      { s2 with transactions := s2.transactions ++
          [{ transaction_type := .UnrealizedGain, amount := period_gains }] }
    else s2
  (interest_amount + period_gains, s3)

/-- `BrokerageAccount::soft_rebalance`.  The closing assertion
`(total_balance - self.get_balance()).abs() < 0.01` is modelled as a `fatal`
branch. -/
def soft_rebalance (s : BrokerageAccount)
    (target_equity_alloc target_cash_alloc : ℚ) :
    Res WithdrawalError (ℚ × ℚ × ℚ) :=
  if 1 ≤ target_cash_alloc ∨ target_cash_alloc < 0 then
    .err (.NegativeAmount target_cash_alloc) s
  else if 1 ≤ target_equity_alloc ∨ target_equity_alloc < 0 then
    .err (.NegativeAmount target_equity_alloc) s
  else
    let total_balance := s.get_balance
    let alloc := s.get_asset_alloc
    let equity_alloc := alloc.2.1
    let bond_alloc := alloc.2.2
    let target_equity_bal := target_equity_alloc * total_balance
    let target_bond_bal := total_balance - total_balance * target_cash_alloc -
      target_equity_bal
    let act_equity_bal := equity_alloc * total_balance
    let act_bond_bal := bond_alloc * total_balance
    let need0_equity := target_equity_bal - act_equity_bal
    let need0_bond := target_bond_bal - act_bond_bal
    let needs :=
      if s.cash_balance < need0_bond + need0_equity then
        let ratio := s.cash_balance / (need0_bond + need0_equity) - 0.001
        (need0_equity * ratio, need0_bond * ratio)
      else (need0_equity, need0_bond)
    let need_for_equity := needs.1
    let need_for_bond := needs.2
    res_bind
      (if 0 < need_for_equity then s.buy 10 (need_for_equity / 10) .Equity
       else .ok 0 s)
      (fun _ s1 =>
        res_bind
          (if 0 < need_for_bond then s1.buy 10 (need_for_bond / 10) .Bond
           else .ok 0 s1)
          (fun _ s2 =>
            if ¬ (|total_balance - s2.get_balance| < 0.01) then .fatal
            else .ok s2.get_asset_alloc s2))

/-- `BrokerageAccount::hard_rebalance`: a soft rebalance, then at most one
corrective sell of the over-target class followed by a buy of the opposite
class with arguments `(proceeds / 10, proceeds / 10)`. -/
def hard_rebalance (s : BrokerageAccount)
    (target_equity_alloc target_cash_alloc : ℚ) :
    Res WithdrawalError (ℚ × ℚ × ℚ) :=
  res_bind (s.soft_rebalance target_equity_alloc target_cash_alloc)
    (fun _ s1 =>
      let total_balance := s1.get_balance
      let alloc := s1.get_asset_alloc
      let equity_alloc := alloc.2.1
      let bond_alloc := alloc.2.2
      let target_equity_bal := target_equity_alloc * total_balance
      let target_bond_bal := total_balance - total_balance * target_cash_alloc -
        target_equity_bal
      let need_for_equity := target_equity_bal - equity_alloc * total_balance
      let need_for_bond := target_bond_bal - bond_alloc * total_balance
      if need_for_equity < 0 then
        res_bind (s1.sell (-need_for_equity) .Equity) (fun proceeds s2 =>
          res_bind (s2.buy (proceeds / 10) (proceeds / 10) .Bond)
            (fun _ s3 => .ok s3.get_asset_alloc s3))
      else if need_for_bond < 0 then
        res_bind (s1.sell (-need_for_bond) .Bond) (fun proceeds s2 =>
          res_bind (s2.buy (proceeds / 10) (proceeds / 10) .Equity)
            (fun _ s3 => .ok s3.get_asset_alloc s3))
      else .ok s1.get_asset_alloc s1)

end BrokerageAccount

/-- One external call of claim C2: the operations a caller can apply to a
brokerage account. -/
inductive Op where
  | dep (amount : ℚ)
  | wd (amount : ℚ)
  | buyOp (shares price : ℚ) (cls : AssetClass)
  | sellOp (amount : ℚ) (cls : AssetClass)
  | accrueOp
  | softOp (target_equity_alloc target_cash_alloc : ℚ)
  | hardOp (target_equity_alloc target_cash_alloc : ℚ)
deriving DecidableEq, Repr

/-- The account state a caller holds after a call, whether it returned `Ok`
or `Err`; `none` when the call aborted the process. -/
def post_state {ε α : Type} : Res ε α → Option BrokerageAccount
  | .fatal => none
  | .err _ s => some s
  | .ok _ s => some s

def apply_op (s : BrokerageAccount) : Op → Option BrokerageAccount
  | .dep a => post_state (s.deposit a)
  | .wd a => post_state (s.withdraw a)
  | .buyOp sh p c => post_state (s.buy sh p c)
  | .sellOp a c => post_state (s.sell a c)
  | .accrueOp => some (s.accrue).2
  | .softOp te tc => post_state (s.soft_rebalance te tc)
  | .hardOp te tc => post_state (s.hard_rebalance te tc)

def run_ops (s : BrokerageAccount) : List Op → Option BrokerageAccount
  | [] => some s
  | op :: rest =>
    match apply_op s op with
    | none => none
    | some s1 => run_ops s1 rest

/-- A call with arguments inside the documented interface contract: `buy`
requires nonnegative shares and price (the specification states
`shares > 0, price > 0`); every other call validates its own arguments. -/
def valid_op : Op → Bool
  | .buyOp sh p _ => decide (0 ≤ sh ∧ 0 ≤ p)
  | _ => true

/-- Modelled from the claim text of C3, not from the source: the per-share
unrealized-gain ratio `(current_price - cost_basis / shares) / (cost_basis / shares)`
that the claim says orders the candidate lots. -/
def spec_per_share_gain_ratio (a : Asset) : ℚ :=
  (a.current_price - a.cost_basis / a.shares) / (a.cost_basis / a.shares)

/-! Basic algebra of the value, share and cost-basis sums. -/

@[simp]
theorem sum_value_nil : sum_value [] = 0 := rfl

@[simp]
theorem sum_value_cons (a : Asset) (l : List Asset) :
    sum_value (a :: l) = a.get_value + sum_value l := by
  simp [sum_value]

@[simp]
theorem sum_value_append (l1 l2 : List Asset) :
    sum_value (l1 ++ l2) = sum_value l1 + sum_value l2 := by
  simp [sum_value]

@[simp]
theorem sum_shares_nil : sum_shares [] = 0 := rfl

@[simp]
theorem sum_shares_cons (a : Asset) (l : List Asset) :
    sum_shares (a :: l) = a.shares + sum_shares l := by
  simp [sum_shares]

@[simp]
theorem sum_shares_append (l1 l2 : List Asset) :
    sum_shares (l1 ++ l2) = sum_shares l1 + sum_shares l2 := by
  simp [sum_shares]

@[simp]
theorem sum_cost_basis_nil : sum_cost_basis [] = 0 := rfl

@[simp]
theorem sum_cost_basis_cons (a : Asset) (l : List Asset) :
    sum_cost_basis (a :: l) = a.cost_basis + sum_cost_basis l := by
  simp [sum_cost_basis]

@[simp]
theorem sum_cost_basis_append (l1 l2 : List Asset) :
    sum_cost_basis (l1 ++ l2) = sum_cost_basis l1 + sum_cost_basis l2 := by
  simp [sum_cost_basis]

theorem sum_value_perm {l1 l2 : List Asset} (h : l1.Perm l2) :
    sum_value l1 = sum_value l2 := by
  exact List.Perm.sum_eq (List.Perm.map Asset.get_value h)

theorem sum_shares_perm {l1 l2 : List Asset} (h : l1.Perm l2) :
    sum_shares l1 = sum_shares l2 := by
  exact List.Perm.sum_eq (List.Perm.map Asset.shares h)

theorem sum_cost_basis_perm {l1 l2 : List Asset} (h : l1.Perm l2) :
    sum_cost_basis l1 = sum_cost_basis l2 := by
  exact List.Perm.sum_eq (List.Perm.map Asset.cost_basis h)

/-- Splitting any additive lot statistic along a Boolean filter. -/
theorem sum_map_filter_add (f : Asset → ℚ) (p : Asset → Bool) :
    ∀ l : List Asset,
      ((l.filter p).map f).sum + ((l.filter (fun a => !p a)).map f).sum
        = (l.map f).sum
  | [] => by simp
  | a :: l => by
    have ih := sum_map_filter_add f p l
    cases h : p a <;> simp [List.filter_cons, h] <;> linarith [ih]

namespace BrokerageAccount

theorem foldl_value (l : List Asset) (c : ℚ) :
    l.foldl (fun acc a => acc + a.shares * a.current_price) c = c + sum_value l := by
  induction l generalizing c with
  | nil => simp
  | cons a l ih => simp [List.foldl_cons, ih, Asset.get_value]; ring

/-- The balance fold is cash plus the total lot value. -/
theorem get_balance_eq (s : BrokerageAccount) :
    s.get_balance = s.cash_balance + sum_value s.assets := by
  simp [get_balance, foldl_value]

@[simp]
theorem txns_total_nil (t : TransactionType) : txns_total [] t = 0 := rfl

@[simp]
theorem txns_total_append (l1 l2 : List Transaction) (t : TransactionType) :
    txns_total (l1 ++ l2) t = txns_total l1 t + txns_total l2 t := by
  simp [txns_total]

@[simp]
theorem txns_total_cons (tr : Transaction) (l : List Transaction)
    (t : TransactionType) :
    txns_total (tr :: l) t =
      (if tr.transaction_type = t then tr.amount else 0) + txns_total l t := by
  by_cases h : tr.transaction_type = t <;> simp [txns_total, List.filter_cons, h]

@[simp]
theorem txns_total_singleton (tr : Transaction) (t : TransactionType) :
    txns_total [tr] t = if tr.transaction_type = t then tr.amount else 0 := by
  simp

/-- The inflow side of `validate_balance`. -/
def inflow (l : List Transaction) : ℚ :=
  txns_total l .Deposit + txns_total l .Interest + txns_total l .UnrealizedGain

/-- The outflow side of `validate_balance`. -/
def outflow (l : List Transaction) : ℚ :=
  txns_total l .Withdrawal + txns_total l .Tax + txns_total l .Fee

theorem expected_balance_eq (s : BrokerageAccount) :
    s.expected_balance = s.starting_balance + inflow s.transactions -
      outflow s.transactions := by
  simp [expected_balance, inflow, outflow, total_of_type]

@[simp]
theorem inflow_nil : inflow [] = 0 := by simp [inflow]

@[simp]
theorem inflow_append (l1 l2 : List Transaction) :
    inflow (l1 ++ l2) = inflow l1 + inflow l2 := by
  simp [inflow]; ring

@[simp]
theorem outflow_nil : outflow [] = 0 := by simp [outflow]

@[simp]
theorem outflow_append (l1 l2 : List Transaction) :
    outflow (l1 ++ l2) = outflow l1 + outflow l2 := by
  simp [outflow]; ring

/-- The exact form of the balance identity that `validate_balance` tests
within 0.015: in the rational model every reachable state satisfies it with
zero error. -/
def BalInv (s : BrokerageAccount) : Prop :=
  s.get_balance = s.expected_balance

theorem validate_balance_of_inv {s : BrokerageAccount} (h : BalInv s) :
    s.validate_balance = true := by
  simp [validate_balance, h.symm, BalInv]
  norm_num

/-- Every lot has nonnegative shares and price.  Preserved by every operation
whose `buy` arguments are nonnegative, and needed only so that the accrual
price bump cannot silently lower the balance. -/
def nonneg_lots (s : BrokerageAccount) : Prop :=
  ∀ a ∈ s.assets, 0 ≤ a.shares ∧ 0 ≤ a.current_price

end BrokerageAccount

/-! Properties of the lot-consuming loop of `sell`. -/

theorem sell_loop_of_le (amount : ℚ) {cr : ℚ} (h : amount ≤ cr) :
    ∀ l : List Asset, sell_loop amount l cr = ⟨cr, [], l⟩
  | [] => rfl
  | a :: rest => by
    simp only [sell_loop, if_pos h, sell_loop_of_le amount h rest]

/-- Value conservation: whatever the loop does, the value kept plus the cash
raised equals the value it was given plus the cash it started with. -/
theorem sell_loop_value (amount : ℚ) :
    ∀ (l : List Asset) (cr : ℚ),
      sum_value (sell_loop amount l cr).to_keep + (sell_loop amount l cr).cash_raised
        = sum_value l + cr
  | [], cr => by simp [sell_loop]
  | a :: rest, cr => by
    by_cases h1 : amount ≤ cr
    · rw [sell_loop_of_le amount h1]
    · by_cases h2 : a.get_value ≤ amount - cr
      · have ih := sell_loop_value amount rest (cr + a.get_value)
        simp only [sell_loop, if_neg h1, if_pos h2]
        push_cast at ih ⊢
        simp only [sum_value_cons]
        linarith [ih]
      · have hrem : 0 < amount - cr := by linarith [lt_of_not_le h1]
        have hav : 0 < a.get_value := lt_trans hrem (lt_of_not_le h2)
        have hp : a.current_price ≠ 0 := by
          intro h0
          rw [Asset.get_value, h0, mul_zero] at hav
          exact lt_irrefl 0 hav
        have hmul : (amount - cr) / a.current_price * a.current_price
            = amount - cr := div_mul_cancel₀ _ hp
        have hcr : cr + (amount - cr) / a.current_price * a.current_price
            = amount := by rw [hmul]; ring
        simp only [sell_loop, if_neg h1, if_neg h2, hcr,
          sell_loop_of_le amount (le_refl amount) rest]
        simp only [sum_value_cons, Asset.get_value]
        have hsplit :
            (a.shares - (amount - cr) / a.current_price) * a.current_price
              = a.shares * a.current_price - (amount - cr) := by
          have h3 : (a.shares - (amount - cr) / a.current_price) * a.current_price
              = a.shares * a.current_price -
                (amount - cr) / a.current_price * a.current_price := by ring
          rw [h3, hmul]
        linarith [hsplit]

/-- The cash raised is the initial cash plus the sale proceeds of the sold
entries, each priced as `shares_sold * current_price` (the amount the `Sale`
ledger entries record). -/
theorem sell_loop_cash (amount : ℚ) :
    ∀ (l : List Asset) (cr : ℚ),
      (sell_loop amount l cr).cash_raised
        = cr + ((sell_loop amount l cr).to_sell.map
            (fun p => p.2 * p.1.current_price)).sum
  | [], cr => by simp [sell_loop]
  | a :: rest, cr => by
    by_cases h1 : amount ≤ cr
    · rw [sell_loop_of_le amount h1]
      simp
    · by_cases h2 : a.get_value ≤ amount - cr
      · have ih := sell_loop_cash amount rest (cr + a.get_value)
        simp only [sell_loop, if_neg h1, if_pos h2, List.map_cons, List.sum_cons]
        rw [ih]
        simp only [Asset.get_value]
        ring
      · have hrem : 0 < amount - cr := by linarith [lt_of_not_le h1]
        have hav : 0 < a.get_value := lt_trans hrem (lt_of_not_le h2)
        have hp : a.current_price ≠ 0 := by
          intro h0
          rw [Asset.get_value, h0, mul_zero] at hav
          exact lt_irrefl 0 hav
        have hmul : (amount - cr) / a.current_price * a.current_price
            = amount - cr := div_mul_cancel₀ _ hp
        have hcr : cr + (amount - cr) / a.current_price * a.current_price
            = amount := by rw [hmul]; ring
        simp only [sell_loop, if_neg h1, if_neg h2, hcr,
          sell_loop_of_le amount (le_refl amount) rest, List.map_cons,
          List.sum_cons]
        simp only [List.map_nil, List.sum_nil, add_zero]
        linarith [hmul]

/-- The total value of the sold sub-lots equals the cash raised beyond the
starting cash. -/
theorem sell_loop_sold_value (amount : ℚ) :
    ∀ (l : List Asset) (cr : ℚ),
      sum_value ((sell_loop amount l cr).to_sell.map Prod.fst)
        = (sell_loop amount l cr).cash_raised - cr
  | [], cr => by simp [sell_loop]
  | a :: rest, cr => by
    by_cases h1 : amount ≤ cr
    · rw [sell_loop_of_le amount h1]
      simp
    · by_cases h2 : a.get_value ≤ amount - cr
      · have ih := sell_loop_sold_value amount rest (cr + a.get_value)
        simp only [sell_loop, if_neg h1, if_pos h2, List.map_cons,
          sum_value_cons]
        rw [ih]
        ring
      · have hrem : 0 < amount - cr := by linarith [lt_of_not_le h1]
        have hav : 0 < a.get_value := lt_trans hrem (lt_of_not_le h2)
        have hp : a.current_price ≠ 0 := by
          intro h0
          rw [Asset.get_value, h0, mul_zero] at hav
          exact lt_irrefl 0 hav
        have hmul : (amount - cr) / a.current_price * a.current_price
            = amount - cr := div_mul_cancel₀ _ hp
        have hcr : cr + (amount - cr) / a.current_price * a.current_price
            = amount := by rw [hmul]; ring
        have h2x : ¬ a.shares * a.current_price ≤ amount - cr := h2
        simp only [sell_loop, if_neg h1, if_neg h2, if_neg h2x, hcr,
          sell_loop_of_le amount (le_refl amount) rest, List.map_cons,
          sum_value_cons, Asset.get_value]
        try simp only [List.map_nil, sum_value_nil, add_zero]
        linarith [hmul]

/-- The loop never raises more cash than `amount` if it starts at or below
it (whole lots are consumed only while they fit, and a split raises exactly
the remainder). -/
theorem sell_loop_le (amount : ℚ) :
    ∀ (l : List Asset) (cr : ℚ), cr ≤ amount →
      (sell_loop amount l cr).cash_raised ≤ amount
  | [], cr, h => h
  | a :: rest, cr, h => by
    by_cases h1 : amount ≤ cr
    · rw [sell_loop_of_le amount h1]
      exact h
    · by_cases h2 : a.get_value ≤ amount - cr
      · have ih := sell_loop_le amount rest (cr + a.get_value) (by linarith)
        simp only [sell_loop, if_neg h1, if_pos h2]
        exact ih
      · have hrem : 0 < amount - cr := by linarith [lt_of_not_le h1]
        have hav : 0 < a.get_value := lt_trans hrem (lt_of_not_le h2)
        have hp : a.current_price ≠ 0 := by
          intro h0
          rw [Asset.get_value, h0, mul_zero] at hav
          exact lt_irrefl 0 hav
        have hmul : (amount - cr) / a.current_price * a.current_price
            = amount - cr := div_mul_cancel₀ _ hp
        have hcr : cr + (amount - cr) / a.current_price * a.current_price
            = amount := by rw [hmul]; ring
        simp only [sell_loop, if_neg h1, if_neg h2, hcr,
          sell_loop_of_le amount (le_refl amount) rest]
        exact le_refl amount

/-- Share conservation across the loop: kept shares plus sold shares equal
the input shares. -/
theorem sell_loop_shares (amount : ℚ) :
    ∀ (l : List Asset) (cr : ℚ),
      sum_shares (sell_loop amount l cr).to_keep +
        sum_shares ((sell_loop amount l cr).to_sell.map Prod.fst)
          = sum_shares l
  | [], cr => by simp [sell_loop]
  | a :: rest, cr => by
    by_cases h1 : amount ≤ cr
    · rw [sell_loop_of_le amount h1]
      simp
    · by_cases h2 : a.get_value ≤ amount - cr
      · have ih := sell_loop_shares amount rest (cr + a.get_value)
        simp only [sell_loop, if_neg h1, if_pos h2, List.map_cons,
          sum_shares_cons]
        linarith [ih]
      · have hrem : 0 < amount - cr := by linarith [lt_of_not_le h1]
        have hav : 0 < a.get_value := lt_trans hrem (lt_of_not_le h2)
        have hp : a.current_price ≠ 0 := by
          intro h0
          rw [Asset.get_value, h0, mul_zero] at hav
          exact lt_irrefl 0 hav
        have hmul : (amount - cr) / a.current_price * a.current_price
            = amount - cr := div_mul_cancel₀ _ hp
        have hcr : cr + (amount - cr) / a.current_price * a.current_price
            = amount := by rw [hmul]; ring
        simp only [sell_loop, if_neg h1, if_neg h2, hcr,
          sell_loop_of_le amount (le_refl amount) rest, List.map_cons,
          sum_shares_cons]
        simp only [List.map_nil, sum_shares_nil, add_zero]
        ring

/-- Cost-basis conservation across the loop: a split lot distributes its cost
basis pro rata over the sold and the kept part, so the total is unchanged. -/
theorem sell_loop_cost_basis (amount : ℚ) :
    ∀ (l : List Asset) (cr : ℚ),
      sum_cost_basis (sell_loop amount l cr).to_keep +
        sum_cost_basis ((sell_loop amount l cr).to_sell.map Prod.fst)
          = sum_cost_basis l
  | [], cr => by simp [sell_loop]
  | a :: rest, cr => by
    by_cases h1 : amount ≤ cr
    · rw [sell_loop_of_le amount h1]
      simp
    · by_cases h2 : a.get_value ≤ amount - cr
      · have ih := sell_loop_cost_basis amount rest (cr + a.get_value)
        simp only [sell_loop, if_neg h1, if_pos h2, List.map_cons,
          sum_cost_basis_cons]
        linarith [ih]
      · have hrem : 0 < amount - cr := by linarith [lt_of_not_le h1]
        have hav : 0 < a.get_value := lt_trans hrem (lt_of_not_le h2)
        have hp : a.current_price ≠ 0 := by
          intro h0
          rw [Asset.get_value, h0, mul_zero] at hav
          exact lt_irrefl 0 hav
        have hsh : a.shares ≠ 0 := by
          intro h0
          rw [Asset.get_value, h0, zero_mul] at hav
          exact lt_irrefl 0 hav
        have hmul : (amount - cr) / a.current_price * a.current_price
            = amount - cr := div_mul_cancel₀ _ hp
        have hcr : cr + (amount - cr) / a.current_price * a.current_price
            = amount := by rw [hmul]; ring
        simp only [sell_loop, if_neg h1, if_neg h2, hcr,
          sell_loop_of_le amount (le_refl amount) rest, List.map_cons,
          sum_cost_basis_cons]
        simp only [List.map_nil, sum_cost_basis_nil, add_zero]
        have hsplit :
            a.cost_basis * ((a.shares - (amount - cr) / a.current_price) / a.shares)
              + a.cost_basis * ((amount - cr) / a.current_price / a.shares)
            = a.cost_basis := by
          have h4 : a.cost_basis * ((a.shares - (amount - cr) / a.current_price) / a.shares)
              + a.cost_basis * ((amount - cr) / a.current_price / a.shares)
              = a.cost_basis * (a.shares / a.shares) := by ring
          rw [h4, div_self hsh, mul_one]
        linarith [hsplit]

/-- Both loop outputs only contain lots of the classes present in the
input. -/
theorem sell_loop_class (amount : ℚ) (c : AssetClass) :
    ∀ (l : List Asset) (cr : ℚ), (∀ a ∈ l, a.asset_class = c) →
      (∀ a ∈ (sell_loop amount l cr).to_keep, a.asset_class = c) ∧
      (∀ p ∈ (sell_loop amount l cr).to_sell, p.1.asset_class = c)
  | [], cr, _ => by simp [sell_loop]
  | a :: rest, cr, h => by
    have ha := h a (List.mem_cons_self a rest)
    have hrest : ∀ x ∈ rest, x.asset_class = c :=
      fun x hx => h x (List.mem_cons_of_mem a hx)
    by_cases h1 : amount ≤ cr
    · rw [sell_loop_of_le amount h1]
      exact ⟨h, by simp⟩
    · by_cases h2 : a.get_value ≤ amount - cr
      · have ih := sell_loop_class amount c rest (cr + a.get_value) hrest
        simp only [sell_loop, if_neg h1, if_pos h2]
        refine ⟨ih.1, ?_⟩
        intro p hp
        rcases List.mem_cons.1 hp with hp1 | hp2
        · rw [hp1]
          exact ha
        · exact ih.2 p hp2
      · have ih := sell_loop_class amount c rest
          (cr + (amount - cr) / a.current_price * a.current_price) hrest
        simp only [sell_loop, if_neg h1, if_neg h2]
        constructor
        · intro x hx
          rcases List.mem_cons.1 hx with hx1 | hx2
          · rw [hx1]
            exact ha
          · exact ih.1 x hx2
        · intro p hp
          rcases List.mem_cons.1 hp with hp1 | hp2
          · rw [hp1]
            exact ha
          · exact ih.2 p hp2

/-- Nonnegativity of shares and prices is preserved by the loop on both
outputs. -/
theorem sell_loop_nonneg (amount : ℚ) :
    ∀ (l : List Asset) (cr : ℚ),
      (∀ a ∈ l, 0 ≤ a.shares ∧ 0 ≤ a.current_price) →
      (∀ a ∈ (sell_loop amount l cr).to_keep,
        0 ≤ a.shares ∧ 0 ≤ a.current_price) ∧
      (∀ p ∈ (sell_loop amount l cr).to_sell,
        0 ≤ p.1.shares ∧ 0 ≤ p.1.current_price)
  | [], cr, _ => by simp [sell_loop]
  | a :: rest, cr, h => by
    have ha := h a (List.mem_cons_self a rest)
    have hrest : ∀ x ∈ rest, 0 ≤ x.shares ∧ 0 ≤ x.current_price :=
      fun x hx => h x (List.mem_cons_of_mem a hx)
    by_cases h1 : amount ≤ cr
    · rw [sell_loop_of_le amount h1]
      exact ⟨h, by simp⟩
    · by_cases h2 : a.get_value ≤ amount - cr
      · have ih := sell_loop_nonneg amount rest (cr + a.get_value) hrest
        simp only [sell_loop, if_neg h1, if_pos h2]
        refine ⟨ih.1, ?_⟩
        intro p hp
        rcases List.mem_cons.1 hp with hp1 | hp2
        · rw [hp1]
          exact ha
        · exact ih.2 p hp2
      · have hrem : 0 < amount - cr := by linarith [lt_of_not_le h1]
        have hav : 0 < a.get_value := lt_trans hrem (lt_of_not_le h2)
        have hpr : 0 < a.current_price := by
          rcases lt_or_eq_of_le ha.2 with hlt | heq
          · exact hlt
          · exfalso
            rw [Asset.get_value, ← heq, mul_zero] at hav
            exact lt_irrefl 0 hav
        have hsts : 0 < (amount - cr) / a.current_price := div_pos hrem hpr
        have hstk : (amount - cr) / a.current_price < a.shares := by
          rw [div_lt_iff₀ hpr]
          calc amount - cr < a.get_value := lt_of_not_le h2
            _ = a.shares * a.current_price := rfl
        have ih := sell_loop_nonneg amount rest
          (cr + (amount - cr) / a.current_price * a.current_price) hrest
        simp only [sell_loop, if_neg h1, if_neg h2]
        constructor
        · intro x hx
          rcases List.mem_cons.1 hx with hx1 | hx2
          · rw [hx1]
            exact ⟨by simp; linarith, by simp [ha.2]⟩
          · exact ih.1 x hx2
        · intro p hp
          rcases List.mem_cons.1 hp with hp1 | hp2
          · rw [hp1]
            exact ⟨by simp; linarith, by simp [ha.2]⟩
          · exact ih.2 p hp2

/-- Consumption order of the loop: the sold entries are exactly a prefix of
the (already sorted) candidate list taken whole, followed by at most one
split entry; the lot split there leaves its remainder first in the kept
list, and every candidate after the split point is kept untouched. -/
theorem sell_loop_prefix (amount : ℚ) :
    ∀ (l : List Asset) (cr : ℚ),
      ∃ k, k ≤ l.length ∧
        ∃ sp kp,
          (sell_loop amount l cr).to_sell
            = (l.take k).map (fun a => (a, a.shares)) ++ sp ∧
          (sell_loop amount l cr).to_keep = kp ++ l.drop (k + sp.length) ∧
          sp.length ≤ 1 ∧ kp.length = sp.length ∧
          (∀ p ∈ sp, ∀ q ∈ kp, ∃ x rest2, l.drop k = x :: rest2 ∧
            p.1.asset_class = x.asset_class ∧
            p.1.current_price = x.current_price ∧
            p.1.shares + q.shares = x.shares ∧ p.2 = p.1.shares)
  | [], cr => by
    refine ⟨0, by simp, [], [], ?_, ?_, by simp, by simp, by simp⟩ <;>
      simp [sell_loop]
  | a :: rest, cr => by
    by_cases h1 : amount ≤ cr
    · refine ⟨0, by simp, [], [], ?_, ?_, by simp, by simp, by simp⟩ <;>
        rw [sell_loop_of_le amount h1] <;> simp
    · by_cases h2 : a.get_value ≤ amount - cr
      · obtain ⟨k, hk, sp, kp, hts, htk, hsp, hkp, hprop⟩ :=
          sell_loop_prefix amount rest (cr + a.get_value)
        refine ⟨k + 1, by simpa using Nat.succ_le_succ hk, sp, kp, ?_, ?_,
          hsp, hkp, ?_⟩
        · simp only [sell_loop, if_neg h1, if_pos h2, List.take_succ_cons,
            List.map_cons, List.cons_append]
          rw [hts]
        · simp only [sell_loop, if_neg h1, if_pos h2]
          rw [htk]
          have harith : k + 1 + sp.length = (k + sp.length) + 1 := by omega
          rw [harith, List.drop_succ_cons]
        · intro p hp q hq
          obtain ⟨x, rest2, hdrop, hrest⟩ := hprop p hp q hq
          exact ⟨x, rest2, by simpa using hdrop, hrest⟩
      · have hrem : 0 < amount - cr := by linarith [lt_of_not_le h1]
        have hav : 0 < a.get_value := lt_trans hrem (lt_of_not_le h2)
        have hp : a.current_price ≠ 0 := by
          intro h0
          rw [Asset.get_value, h0, mul_zero] at hav
          exact lt_irrefl 0 hav
        have hmul : (amount - cr) / a.current_price * a.current_price
            = amount - cr := div_mul_cancel₀ _ hp
        have hcr : cr + (amount - cr) / a.current_price * a.current_price
            = amount := by rw [hmul]; ring
        have hres : sell_loop amount (a :: rest) cr =
            ⟨amount,
             [(Asset.mk a.symbol ((amount - cr) / a.current_price)
                 (a.cost_basis * ((amount - cr) / a.current_price / a.shares))
                 a.current_price a.asset_class,
               (amount - cr) / a.current_price)],
             Asset.mk a.symbol (a.shares - (amount - cr) / a.current_price)
                 (a.cost_basis *
                   ((a.shares - (amount - cr) / a.current_price) / a.shares))
                 a.current_price a.asset_class
               :: rest⟩ := by
          simp only [sell_loop, if_neg h1, if_neg h2, hcr,
            sell_loop_of_le amount (le_refl amount) rest]
        rw [hres]
        refine ⟨0, Nat.zero_le _,
          [(Asset.mk a.symbol ((amount - cr) / a.current_price)
              (a.cost_basis * ((amount - cr) / a.current_price / a.shares))
              a.current_price a.asset_class,
            (amount - cr) / a.current_price)],
          [Asset.mk a.symbol (a.shares - (amount - cr) / a.current_price)
              (a.cost_basis *
                ((a.shares - (amount - cr) / a.current_price) / a.shares))
              a.current_price a.asset_class],
          by simp, by simp, by simp, by simp, ?_⟩
        intro p hp1 q hq1
        simp only [List.mem_singleton] at hp1 hq1
        refine ⟨a, rest, by simp, ?_⟩
        rw [hp1, hq1]
        refine ⟨rfl, rfl, by simp, rfl⟩

/-! The sort used by `sell`. -/

instance : IsTotal Asset (fun a b => gain_rate a ≤ gain_rate b) :=
  ⟨fun a b => le_total (gain_rate a) (gain_rate b)⟩

instance : IsTrans Asset (fun a b => gain_rate a ≤ gain_rate b) :=
  ⟨fun _ _ _ hab hbc => le_trans hab hbc⟩

theorem sort_lots_perm (l : List Asset) : (sort_lots l).Perm l :=
  List.perm_insertionSort _ l

theorem sort_lots_sorted (l : List Asset) :
    (sort_lots l).Sorted (fun a b => gain_rate a ≤ gain_rate b) :=
  List.sorted_insertionSort _ l

theorem sort_lots_mem {l : List Asset} {a : Asset} :
    a ∈ sort_lots l ↔ a ∈ l :=
  (sort_lots_perm l).mem_iff

/-- The capital-gains tax is clamped at zero. -/
theorem calc_cap_gains_tax_nonneg (l : List (Asset × ℚ)) :
    0 ≤ BrokerageAccount.calc_cap_gains_tax l :=
  le_max_right _ _

namespace BrokerageAccount

/-- Post-state predicate on an operation result: holds of the state the
caller is left with, and is `False` when the call aborted. -/
def res_ok {ε α : Type} (P : BrokerageAccount → Prop) : Res ε α → Prop
  | .fatal => False
  | .err _ st => P st
  | .ok _ st => P st

/-- Reasoning principle for `res_bind`: propagate a post-state predicate
through the Rust `?` operator. -/
theorem res_ok_bind {ε α β : Type} {Q P : BrokerageAccount → Prop}
    (r : Res ε α) (f : α → BrokerageAccount → Res ε β)
    (hr : res_ok Q r)
    (herr : ∀ st, Q st → P st)
    (hok : ∀ v st, r = .ok v st → Q st → res_ok P (f v st)) :
    res_ok P (res_bind r f) := by
  cases r with
  | fatal => exact hr.elim
  | err e st => exact herr st hr
  | ok v st => exact hok v st rfl hr

/-- Proof apparatus (not part of the source): the candidate lots of a class,
in store order, as `sell` partitions them. -/
def class_assets (s : BrokerageAccount) (cls : AssetClass) : List Asset :=
  s.assets.filter (fun a => decide (a.asset_class = cls))

/-- Proof apparatus: the lots of the other classes, in store order. -/
def other_assets (s : BrokerageAccount) (cls : AssetClass) : List Asset :=
  s.assets.filter (fun a => !decide (a.asset_class = cls))

/-- Proof apparatus: the loop output `sell_core` computes on `s`. -/
def sell_L (s : BrokerageAccount) (amount : ℚ) (cls : AssetClass) : LoopOut :=
  sell_loop amount (sort_lots (class_assets s cls)) 0

/-- Value split of the lot store along a class. -/
theorem sum_value_class_split (s : BrokerageAccount) (cls : AssetClass) :
    sum_value (class_assets s cls) + sum_value (other_assets s cls)
      = sum_value s.assets := by
  simpa [class_assets, other_assets, sum_value] using
    sum_map_filter_add Asset.get_value
      (fun a => decide (a.asset_class = cls)) s.assets

/-- The lots the shortfall and tax-shortfall paths put back carry exactly the
value of the lots that were drained. -/
theorem restore_value (s : BrokerageAccount) (amount : ℚ) (cls : AssetClass) :
    sum_value (other_assets s cls ++ (sell_L s amount cls).to_keep ++
        (sell_L s amount cls).to_sell.map Prod.fst)
      = sum_value s.assets := by
  have hkeep := sell_loop_value amount (sort_lots (class_assets s cls)) 0
  have hsold := sell_loop_sold_value amount (sort_lots (class_assets s cls)) 0
  have hperm := sum_value_perm (sort_lots_perm (class_assets s cls))
  have hsplit := sum_value_class_split s cls
  simp only [sell_L, sum_value_append]
  linarith [hkeep, hsold, hperm, hsplit]

theorem liquidate_assets (s : BrokerageAccount) :
    (s.liquidate).2.assets = [] := by
  simp only [liquidate]
  split <;> rfl

theorem liquidate_cash (s : BrokerageAccount) :
    (s.liquidate).2.cash_balance = s.cash_balance + sum_value s.assets -
      calc_cap_gains_tax (s.assets.map (fun a => (a, a.shares))) := by
  simp only [liquidate]
  split
  next h => rfl
  next h =>
    have h0 := calc_cap_gains_tax_nonneg (s.assets.map (fun a => (a, a.shares)))
    have hz : calc_cap_gains_tax (s.assets.map (fun a => (a, a.shares))) = 0 := by
      push_neg at h
      linarith
    simp [hz]

theorem liquidate_fst (s : BrokerageAccount) :
    (s.liquidate).1 = sum_value s.assets -
      calc_cap_gains_tax (s.assets.map (fun a => (a, a.shares))) := rfl

theorem liquidate_transactions (s : BrokerageAccount) :
    (s.liquidate).2.transactions = s.transactions ++
      s.assets.map (fun a => { transaction_type := .Sale, amount := a.get_value }) ++
      (if 0 < calc_cap_gains_tax (s.assets.map (fun a => (a, a.shares))) then
        [{ transaction_type := .Tax,
           amount := calc_cap_gains_tax (s.assets.map (fun a => (a, a.shares))) }]
       else []) := by
  simp only [liquidate]
  split
  next h => simp [h]
  next h => simp [h]

theorem liquidate_same (s : BrokerageAccount) :
    (s.liquidate).2.starting_balance = s.starting_balance ∧
    (s.liquidate).2.cash_interest = s.cash_interest ∧
    (s.liquidate).2.name = s.name := by
  simp only [liquidate]
  split <;> exact ⟨rfl, rfl, rfl⟩

/-- A transaction list built only of `Sale` entries contributes nothing to a
total of any other type. -/
theorem txns_total_map_sale {α : Type} (f : α → ℚ) (t : TransactionType)
    (h : t ≠ .Sale) :
    ∀ l : List α,
      txns_total (l.map (fun a =>
        ({ transaction_type := .Sale, amount := f a } : Transaction))) t = 0
  | [] => rfl
  | a :: l => by
    have ih := txns_total_map_sale f t h l
    simp only [List.map_cons, txns_total_cons, ih, add_zero]
    exact if_neg (fun hc => h hc.symm)

theorem inflow_map_sale {α : Type} (f : α → ℚ) (l : List α) :
    inflow (l.map (fun a =>
      ({ transaction_type := .Sale, amount := f a } : Transaction))) = 0 := by
  simp [inflow, txns_total_map_sale f TransactionType.Deposit (by decide) l,
    txns_total_map_sale f TransactionType.Interest (by decide) l,
    txns_total_map_sale f TransactionType.UnrealizedGain (by decide) l]

theorem outflow_map_sale {α : Type} (f : α → ℚ) (l : List α) :
    outflow (l.map (fun a =>
      ({ transaction_type := .Sale, amount := f a } : Transaction))) = 0 := by
  simp [outflow, txns_total_map_sale f TransactionType.Withdrawal (by decide) l,
    txns_total_map_sale f TransactionType.Tax (by decide) l,
    txns_total_map_sale f TransactionType.Fee (by decide) l]

theorem inflow_tax_singleton (x : ℚ) :
    inflow [{ transaction_type := .Tax, amount := x }] = 0 := by
  simp [inflow]

theorem outflow_tax_singleton (x : ℚ) :
    outflow [{ transaction_type := .Tax, amount := x }] = x := by
  simp [outflow]

/-- `liquidate` preserves the exact balance identity: the lot value moves
into cash, only the tax leaves, and the tax is logged exactly when it is
debited. -/
theorem liquidate_inv {s : BrokerageAccount} (h : BalInv s) :
    BalInv (s.liquidate).2 := by
  have hc := liquidate_cash s
  have ht := liquidate_transactions s
  have ha := liquidate_assets s
  have hs := (liquidate_same s).1
  have htaxnn := calc_cap_gains_tax_nonneg (s.assets.map (fun a => (a, a.shares)))
  unfold BalInv at h ⊢
  rw [get_balance_eq, expected_balance_eq] at h ⊢
  rw [ha, hc, ht, hs]
  simp only [sum_value_nil, add_zero, inflow_append, outflow_append,
    inflow_map_sale, outflow_map_sale]
  by_cases htax : 0 < calc_cap_gains_tax (s.assets.map (fun a => (a, a.shares)))
  · rw [if_pos htax]
    rw [inflow_tax_singleton, outflow_tax_singleton]
    linarith [h]
  · rw [if_neg htax]
    push_neg at htax
    have hz : calc_cap_gains_tax (s.assets.map (fun a => (a, a.shares))) = 0 := by
      linarith
    rw [hz]
    simp only [inflow_nil, outflow_nil]
    linarith [h]

theorem liquidate_nonneg (s : BrokerageAccount) :
    nonneg_lots (s.liquidate).2 := by
  unfold nonneg_lots
  rw [liquidate_assets]
  simp

/-- The state the two failing paths of `sell_core` leave behind: the other
classes, the kept lots, and the drained lots put back. -/
def sell_restore (s : BrokerageAccount) (amount : ℚ) (cls : AssetClass) :
    BrokerageAccount :=
  { s with assets := other_assets s cls ++ (sell_L s amount cls).to_keep ++
      (sell_L s amount cls).to_sell.map Prod.fst }

theorem sell_restore_balance (s : BrokerageAccount) (amount : ℚ)
    (cls : AssetClass) :
    (sell_restore s amount cls).get_balance = s.get_balance := by
  rw [get_balance_eq, get_balance_eq]
  show s.cash_balance + sum_value (other_assets s cls ++ _ ++ _) = _
  rw [restore_value]

theorem sell_restore_inv {s : BrokerageAccount} (h : BalInv s) (amount : ℚ)
    (cls : AssetClass) : BalInv (sell_restore s amount cls) := by
  unfold BalInv
  rw [sell_restore_balance]
  exact h

/-- The state a successful `sell_core` commits: tax debited and logged if
positive, the sale amount credited, one `Sale` entry per sold sub-lot, and
the kept lots appended after the other classes. -/
def sell_commit (s : BrokerageAccount) (amount : ℚ) (cls : AssetClass) :
    BrokerageAccount :=
  let L := sell_L s amount cls
  let tax := calc_cap_gains_tax L.to_sell
  let s3 := if 0 < tax then
      { s with cash_balance := s.cash_balance - tax,
               transactions := s.transactions ++
                 [{ transaction_type := .Tax, amount := tax }] }
    else s
  { s3 with
    cash_balance := s3.cash_balance + amount,
    transactions := s3.transactions ++ L.to_sell.map
      (fun p => { transaction_type := .Sale,
                  amount := p.2 * p.1.current_price }),
    assets := other_assets s cls ++ L.to_keep }

theorem sell_commit_cash (s : BrokerageAccount) (amount : ℚ)
    (cls : AssetClass) :
    (sell_commit s amount cls).cash_balance
      = s.cash_balance - calc_cap_gains_tax (sell_L s amount cls).to_sell
        + amount := by
  have hnn := calc_cap_gains_tax_nonneg (sell_L s amount cls).to_sell
  simp only [sell_commit]
  split
  next h => rfl
  next h =>
    have hz : calc_cap_gains_tax (sell_L s amount cls).to_sell = 0 := by
      push_neg at h
      linarith
    rw [hz]
    ring

theorem sell_commit_transactions (s : BrokerageAccount) (amount : ℚ)
    (cls : AssetClass) :
    (sell_commit s amount cls).transactions
      = s.transactions ++
        (if 0 < calc_cap_gains_tax (sell_L s amount cls).to_sell then
          [{ transaction_type := .Tax,
             amount := calc_cap_gains_tax (sell_L s amount cls).to_sell }]
         else []) ++
        (sell_L s amount cls).to_sell.map
          (fun p => { transaction_type := .Sale,
                      amount := p.2 * p.1.current_price }) := by
  simp only [sell_commit]
  split
  next h => simp [h]
  next h => simp [h]

theorem sell_commit_assets (s : BrokerageAccount) (amount : ℚ)
    (cls : AssetClass) :
    (sell_commit s amount cls).assets
      = other_assets s cls ++ (sell_L s amount cls).to_keep := by
  simp only [sell_commit]

theorem sell_commit_same (s : BrokerageAccount) (amount : ℚ)
    (cls : AssetClass) :
    (sell_commit s amount cls).starting_balance = s.starting_balance := by
  simp only [sell_commit]
  split <;> rfl

/-- The loop inside `sell` never raises more than the requested amount. -/
theorem sell_L_le (s : BrokerageAccount) {amount : ℚ} (cls : AssetClass)
    (h0 : 0 ≤ amount) : (sell_L s amount cls).cash_raised ≤ amount :=
  sell_loop_le amount _ 0 h0

/-- Value of the kept candidate lots in terms of the cash raised. -/
theorem sell_L_keep_value (s : BrokerageAccount) (amount : ℚ)
    (cls : AssetClass) :
    sum_value (sell_L s amount cls).to_keep
      = sum_value (class_assets s cls) - (sell_L s amount cls).cash_raised := by
  have h := sell_loop_value amount (sort_lots (class_assets s cls)) 0
  have hperm := sum_value_perm (sort_lots_perm (class_assets s cls))
  simp only [sell_L]
  linarith

/-- A successful sale moves exactly `amount` of lot value out: the balance
drops by the tax alone. -/
theorem sell_commit_balance (s : BrokerageAccount) {amount : ℚ}
    (cls : AssetClass) (h0 : 0 ≤ amount)
    (hcr : ¬ (sell_L s amount cls).cash_raised < amount) :
    (sell_commit s amount cls).get_balance
      = s.get_balance - calc_cap_gains_tax (sell_L s amount cls).to_sell := by
  have heq : (sell_L s amount cls).cash_raised = amount :=
    le_antisymm (sell_L_le s cls h0) (not_lt.1 hcr)
  rw [get_balance_eq, get_balance_eq, sell_commit_cash, sell_commit_assets,
    sum_value_append]
  have hkeep := sell_L_keep_value s amount cls
  have hsplit := sum_value_class_split s cls
  rw [heq] at hkeep
  linarith

theorem sell_commit_inv {s : BrokerageAccount} {amount : ℚ}
    {cls : AssetClass} (hInv : BalInv s) (h0 : 0 ≤ amount)
    (hcr : ¬ (sell_L s amount cls).cash_raised < amount) :
    BalInv (sell_commit s amount cls) := by
  have htaxnn := calc_cap_gains_tax_nonneg (sell_L s amount cls).to_sell
  unfold BalInv at hInv ⊢
  rw [sell_commit_balance s cls h0 hcr, expected_balance_eq,
    sell_commit_transactions, sell_commit_same] at *
  simp only [inflow_append, outflow_append, inflow_map_sale, outflow_map_sale]
  by_cases htax : 0 < calc_cap_gains_tax (sell_L s amount cls).to_sell
  · rw [if_pos htax, inflow_tax_singleton, outflow_tax_singleton]
    linarith
  · rw [if_neg htax]
    have hz : calc_cap_gains_tax (sell_L s amount cls).to_sell = 0 := by
      push_neg at htax
      linarith
    rw [hz]
    simp only [inflow_nil, outflow_nil]
    linarith

theorem mem_of_mem_other {s : BrokerageAccount} {cls : AssetClass} {a : Asset}
    (h : a ∈ other_assets s cls) : a ∈ s.assets :=
  List.mem_of_mem_filter h

theorem mem_of_mem_sorted_class {s : BrokerageAccount} {cls : AssetClass}
    {a : Asset} (h : a ∈ sort_lots (class_assets s cls)) : a ∈ s.assets :=
  List.mem_of_mem_filter (sort_lots_mem.1 h)

theorem sell_restore_nonneg {s : BrokerageAccount} (hnn : nonneg_lots s)
    (amount : ℚ) (cls : AssetClass) :
    nonneg_lots (sell_restore s amount cls) := by
  have hloop := sell_loop_nonneg amount (sort_lots (class_assets s cls)) 0
    (fun a ha => hnn a (mem_of_mem_sorted_class ha))
  intro a ha
  simp only [sell_restore, List.mem_append] at ha
  rcases ha with (ha | ha) | ha
  · exact hnn a (mem_of_mem_other ha)
  · exact hloop.1 a ha
  · obtain ⟨p, hp, hpa⟩ := List.mem_map.1 ha
    rw [← hpa]
    exact hloop.2 p hp

theorem sell_commit_nonneg {s : BrokerageAccount} (hnn : nonneg_lots s)
    (amount : ℚ) (cls : AssetClass) :
    nonneg_lots (sell_commit s amount cls) := by
  have hloop := sell_loop_nonneg amount (sort_lots (class_assets s cls)) 0
    (fun a ha => hnn a (mem_of_mem_sorted_class ha))
  intro a ha
  rw [sell_commit_assets] at ha
  rcases List.mem_append.1 ha with ha | ha
  · exact hnn a (mem_of_mem_other ha)
  · exact hloop.1 a ha

/-- `sell_core` unfolded onto the named path states: the definition is a
case tree over the shortfall test, the tax test, and the two validation
checks. -/
theorem sell_core_eq (s : BrokerageAccount) (amount : ℚ) (cls : AssetClass) :
    sell_core s amount cls =
      (if (sell_L s amount cls).cash_raised < amount then
        (if (sell_restore s amount cls).validate_balance = false then .fatal
         else .err (.InsufficientFunds amount (sell_L s amount cls).cash_raised)
           (sell_restore s amount cls))
      else if s.cash_balance < calc_cap_gains_tax (sell_L s amount cls).to_sell then
        .err (.InsufficientFunds (calc_cap_gains_tax (sell_L s amount cls).to_sell)
          s.cash_balance) (sell_restore s amount cls)
      else if (sell_commit s amount cls).validate_balance = false then .fatal
      else .ok amount (sell_commit s amount cls)) := rfl

theorem sell_core_shortfall {s : BrokerageAccount} {amount : ℚ}
    {cls : AssetClass} (hInv : BalInv s)
    (hcr : (sell_L s amount cls).cash_raised < amount) :
    sell_core s amount cls =
      .err (.InsufficientFunds amount (sell_L s amount cls).cash_raised)
        (sell_restore s amount cls) := by
  rw [sell_core_eq, if_pos hcr,
    if_neg (by simp [validate_balance_of_inv (sell_restore_inv hInv amount cls)])]

theorem sell_core_tax_short {s : BrokerageAccount} {amount : ℚ}
    {cls : AssetClass}
    (hcr : ¬ (sell_L s amount cls).cash_raised < amount)
    (htax : s.cash_balance < calc_cap_gains_tax (sell_L s amount cls).to_sell) :
    sell_core s amount cls =
      .err (.InsufficientFunds (calc_cap_gains_tax (sell_L s amount cls).to_sell)
        s.cash_balance) (sell_restore s amount cls) := by
  rw [sell_core_eq, if_neg hcr, if_pos htax]

theorem sell_core_ok {s : BrokerageAccount} {amount : ℚ}
    {cls : AssetClass} (hInv : BalInv s) (h0 : 0 ≤ amount)
    (hcr : ¬ (sell_L s amount cls).cash_raised < amount)
    (htax : ¬ s.cash_balance < calc_cap_gains_tax (sell_L s amount cls).to_sell) :
    sell_core s amount cls = .ok amount (sell_commit s amount cls) := by
  rw [sell_core_eq, if_neg hcr, if_neg htax,
    if_neg (by simp [validate_balance_of_inv (sell_commit_inv hInv h0 hcr)])]

/-- Whatever path `sell_core` takes from a state satisfying the balance
identity with nonnegative lots, it does not abort and the resulting state
satisfies both again. -/
theorem sell_core_preserves {s : BrokerageAccount} {amount : ℚ}
    {cls : AssetClass} (hInv : BalInv s) (hnn : nonneg_lots s) (h0 : 0 ≤ amount) :
    res_ok (fun st => BalInv st ∧ nonneg_lots st) (sell_core s amount cls) := by
  by_cases hcr : (sell_L s amount cls).cash_raised < amount
  · rw [sell_core_shortfall hInv hcr]
    exact ⟨sell_restore_inv hInv amount cls, sell_restore_nonneg hnn amount cls⟩
  · by_cases htax : s.cash_balance <
        calc_cap_gains_tax (sell_L s amount cls).to_sell
    · rw [sell_core_tax_short hcr htax]
      exact ⟨sell_restore_inv hInv amount cls, sell_restore_nonneg hnn amount cls⟩
    · rw [sell_core_ok hInv h0 hcr htax]
      exact ⟨sell_commit_inv hInv h0 hcr, sell_commit_nonneg hnn amount cls⟩

/-- `sell` in terms of `sell_core`, when the entry validation passes and the
amount is nonnegative. -/
theorem sell_eq_core {s0 : BrokerageAccount} {amount : ℚ} (cls : AssetClass)
    (hInv : BalInv s0) (h0 : 0 ≤ amount) :
    s0.sell amount cls =
      sell_core (if amount > s0.get_balance then (s0.liquidate).2 else s0)
        amount cls := by
  unfold sell
  rw [if_neg (by simp [validate_balance_of_inv hInv]), if_neg (not_lt.2 h0)]

/-- `sell` preserves the balance identity and lot nonnegativity along every
path, the internal liquidation included, and never aborts. -/
theorem sell_preserves {s0 : BrokerageAccount} (amount : ℚ) (cls : AssetClass)
    (hInv : BalInv s0) (hnn : nonneg_lots s0) :
    res_ok (fun st => BalInv st ∧ nonneg_lots st) (s0.sell amount cls) := by
  by_cases hneg : amount < 0
  · unfold sell
    rw [if_neg (by simp [validate_balance_of_inv hInv]), if_pos hneg]
    exact ⟨hInv, hnn⟩
  · rw [sell_eq_core cls hInv (not_lt.1 hneg)]
    by_cases hliq : amount > s0.get_balance
    · rw [if_pos hliq]
      exact sell_core_preserves (liquidate_inv hInv) (liquidate_nonneg s0)
        (not_lt.1 hneg)
    · rw [if_neg hliq]
      exact sell_core_preserves hInv hnn (not_lt.1 hneg)

/-- A successful `sell` returns the requested amount. -/
theorem sell_ok_val {s0 st : BrokerageAccount} {amount v : ℚ}
    {cls : AssetClass} (h : s0.sell amount cls = .ok v st) : v = amount := by
  unfold sell at h
  rw [sell_core_eq] at h
  split_ifs at h <;> simp_all

/-! Remaining operations: `buy`, `deposit`, `withdraw`, `accrue`. -/

/-- The state a successful `buy` commits. -/
def buy_commit (s : BrokerageAccount) (shares price : ℚ) (cls : AssetClass) :
    BrokerageAccount :=
  { s with cash_balance := s.cash_balance - price * shares,
           transactions := s.transactions ++
             [{ transaction_type := .Purchase, amount := price * shares }],
           assets := s.assets ++
             [{ symbol := symbol_of cls, shares, cost_basis := price * shares,
                current_price := price, asset_class := cls }] }

theorem buy_eq (s : BrokerageAccount) (shares price : ℚ) (cls : AssetClass) :
    s.buy shares price cls =
      if !s.has_enough_cash (price * shares) then
        .err (.InsufficientFunds (price * shares) s.get_cash_balance) s
      else .ok (price * shares) (buy_commit s shares price cls) := rfl

/-- A buy leaves the total balance unchanged: the cash spent equals the value
of the appended lot, to machine precision exactly in the rational model (the
identity behind the four debug assertions of the source). -/
theorem buy_commit_balance (s : BrokerageAccount) (shares price : ℚ)
    (cls : AssetClass) :
    (buy_commit s shares price cls).get_balance = s.get_balance := by
  rw [get_balance_eq, get_balance_eq]
  simp only [buy_commit, sum_value_append, sum_value_cons, sum_value_nil,
    Asset.get_value]
  ring

theorem inflow_purchase_singleton (x : ℚ) :
    inflow [{ transaction_type := .Purchase, amount := x }] = 0 := by
  simp [inflow]

theorem outflow_purchase_singleton (x : ℚ) :
    outflow [{ transaction_type := .Purchase, amount := x }] = 0 := by
  simp [outflow]

theorem buy_commit_inv {s : BrokerageAccount} (hInv : BalInv s)
    (shares price : ℚ) (cls : AssetClass) :
    BalInv (buy_commit s shares price cls) := by
  unfold BalInv at hInv ⊢
  rw [buy_commit_balance, expected_balance_eq] at *
  simp only [buy_commit, inflow_append, outflow_append,
    inflow_purchase_singleton, outflow_purchase_singleton]
  linarith [hInv]

theorem buy_commit_nonneg {s : BrokerageAccount} (hnn : nonneg_lots s)
    {shares price : ℚ} (cls : AssetClass) (hsh : 0 ≤ shares)
    (hpr : 0 ≤ price) : nonneg_lots (buy_commit s shares price cls) := by
  intro a ha
  simp only [buy_commit, List.mem_append, List.mem_singleton] at ha
  rcases ha with ha | ha
  · exact hnn a ha
  · rw [ha]
    exact ⟨hsh, hpr⟩

theorem buy_preserves {s : BrokerageAccount} {shares price : ℚ}
    (cls : AssetClass) (hInv : BalInv s) (hnn : nonneg_lots s)
    (hsh : 0 ≤ shares) (hpr : 0 ≤ price) :
    res_ok (fun st => BalInv st ∧ nonneg_lots st) (s.buy shares price cls) := by
  rw [buy_eq]
  split
  · exact ⟨hInv, hnn⟩
  · exact ⟨buy_commit_inv hInv shares price cls,
      buy_commit_nonneg hnn cls hsh hpr⟩

theorem inflow_deposit_singleton (x : ℚ) :
    inflow [{ transaction_type := .Deposit, amount := x }] = x := by
  simp [inflow]

theorem outflow_deposit_singleton (x : ℚ) :
    outflow [{ transaction_type := .Deposit, amount := x }] = 0 := by
  simp [outflow]

theorem inflow_withdrawal_singleton (x : ℚ) :
    inflow [{ transaction_type := .Withdrawal, amount := x }] = 0 := by
  simp [inflow]

theorem outflow_withdrawal_singleton (x : ℚ) :
    outflow [{ transaction_type := .Withdrawal, amount := x }] = x := by
  simp [outflow]

theorem inflow_interest_singleton (x : ℚ) :
    inflow [{ transaction_type := .Interest, amount := x }] = x := by
  simp [inflow]

theorem outflow_interest_singleton (x : ℚ) :
    outflow [{ transaction_type := .Interest, amount := x }] = 0 := by
  simp [outflow]

theorem inflow_gain_singleton (x : ℚ) :
    inflow [{ transaction_type := .UnrealizedGain, amount := x }] = x := by
  simp [inflow]

theorem outflow_gain_singleton (x : ℚ) :
    outflow [{ transaction_type := .UnrealizedGain, amount := x }] = 0 := by
  simp [outflow]

theorem deposit_preserves {s : BrokerageAccount} (amount : ℚ)
    (hInv : BalInv s) (hnn : nonneg_lots s) :
    res_ok (fun st => BalInv st ∧ nonneg_lots st) (s.deposit amount) := by
  unfold deposit
  split
  · exact ⟨hInv, hnn⟩
  · constructor
    · unfold BalInv at hInv ⊢
      rw [get_balance_eq, expected_balance_eq] at *
      simp only [inflow_append, outflow_append, inflow_deposit_singleton,
        outflow_deposit_singleton]
      linarith [hInv]
    · exact fun a ha => hnn a ha

theorem withdraw_commit_inv {s : BrokerageAccount} (hInv : BalInv s)
    (amount : ℚ) : BalInv (withdraw_commit s amount) := by
  unfold BalInv at hInv ⊢
  rw [get_balance_eq, expected_balance_eq] at *
  simp only [withdraw_commit, inflow_append, outflow_append,
    inflow_withdrawal_singleton, outflow_withdrawal_singleton]
  linarith [hInv]

theorem withdraw_commit_nonneg {s : BrokerageAccount} (hnn : nonneg_lots s)
    (amount : ℚ) : nonneg_lots (withdraw_commit s amount) :=
  fun a ha => hnn a ha

theorem withdraw_preserves {s : BrokerageAccount} (amount : ℚ)
    (hInv : BalInv s) (hnn : nonneg_lots s) :
    res_ok (fun st => BalInv st ∧ nonneg_lots st) (s.withdraw amount) := by
  unfold withdraw
  split
  · exact ⟨hInv, hnn⟩
  · split
    · refine res_ok_bind _ _
        (sell_preserves ((amount - s.get_cash_balance) * 1.15)
          AssetClass.Equity hInv hnn) (fun st h => h) ?_
      intro v s1 _ h1
      split
      · exact h1
      · exact ⟨withdraw_commit_inv h1.1 amount,
          withdraw_commit_nonneg h1.2 amount⟩
    · exact ⟨withdraw_commit_inv hInv amount,
        withdraw_commit_nonneg hnn amount⟩

/-! The accrual cycle. -/

theorem rate_nonneg (a : Asset) : 0 ≤ a.get_rate_of_return := by
  unfold Asset.get_rate_of_return
  rcases a.asset_class <;> norm_num

/-- Cash-interest step of `accrue`. -/
def accrue_interest_state (s : BrokerageAccount) : BrokerageAccount :=
  if 0 < s.cash_balance * (s.cash_interest / 100) then
    { s with
      cash_balance := s.cash_balance + s.cash_balance * (s.cash_interest / 100),
      transactions := s.transactions ++
        [{ transaction_type := .Interest,
           amount := s.cash_balance * (s.cash_interest / 100) }] }
  else s

/-- Summed per-lot value deltas of one accrual price bump. -/
def accrue_gains (s : BrokerageAccount) : ℚ :=
  (s.assets.map (fun a => (Asset.accrue_price a).get_value - a.get_value)).sum

/-- Price-bump step of `accrue`. -/
def accrue_bump_state (s : BrokerageAccount) : BrokerageAccount :=
  { s with assets := s.assets.map Asset.accrue_price }

/-- Gains-ledger step of `accrue`. -/
def accrue_log_state (s : BrokerageAccount) : BrokerageAccount :=
  if 0 < accrue_gains s then
    { accrue_bump_state s with
      transactions := (accrue_bump_state s).transactions ++
        [{ transaction_type := .UnrealizedGain, amount := accrue_gains s }] }
  else accrue_bump_state s

theorem accrue_eq (s : BrokerageAccount) :
    s.accrue = (s.cash_balance * (s.cash_interest / 100) +
        accrue_gains (accrue_interest_state s),
      accrue_log_state (accrue_interest_state s)) := rfl

theorem sum_value_bump :
    ∀ l : List Asset,
      sum_value (l.map Asset.accrue_price)
        = sum_value l +
          (l.map (fun a => (Asset.accrue_price a).get_value - a.get_value)).sum
  | [] => by simp
  | a :: l => by
    simp only [List.map_cons, sum_value_cons, List.sum_cons, sum_value_bump l]
    ring

theorem accrue_gains_nonneg {s : BrokerageAccount} (hnn : nonneg_lots s) :
    0 ≤ accrue_gains s := by
  apply List.sum_nonneg
  intro x hx
  obtain ⟨a, ha, hax⟩ := List.mem_map.1 hx
  have hrr := rate_nonneg a
  have hsh := (hnn a ha).1
  have hpr := (hnn a ha).2
  rw [← hax]
  have : (Asset.accrue_price a).get_value - a.get_value
      = a.shares * a.current_price * (a.get_rate_of_return / 100) := by
    simp only [Asset.accrue_price, Asset.get_value]
    ring
  rw [this]
  positivity

theorem accrue_interest_inv {s : BrokerageAccount} (hInv : BalInv s) :
    BalInv (accrue_interest_state s) := by
  unfold accrue_interest_state
  split
  · unfold BalInv at hInv ⊢
    rw [get_balance_eq, expected_balance_eq] at *
    simp only [inflow_append, outflow_append, inflow_interest_singleton,
      outflow_interest_singleton]
    linarith [hInv]
  · exact hInv

theorem accrue_interest_nonneg {s : BrokerageAccount} (hnn : nonneg_lots s) :
    nonneg_lots (accrue_interest_state s) := by
  unfold accrue_interest_state
  split
  · exact fun a ha => hnn a ha
  · exact hnn

theorem accrue_log_inv {s : BrokerageAccount} (hInv : BalInv s)
    (hnn : nonneg_lots s) : BalInv (accrue_log_state s) := by
  have hb : (accrue_bump_state s).get_balance
      = s.get_balance + accrue_gains s := by
    rw [get_balance_eq, get_balance_eq]
    simp only [accrue_bump_state, sum_value_bump, accrue_gains]
    ring
  unfold accrue_log_state
  split
  next hpos =>
    unfold BalInv at hInv ⊢
    rw [get_balance_eq, expected_balance_eq] at *
    rw [get_balance_eq] at hb
    simp only [accrue_bump_state, inflow_append, outflow_append,
      inflow_gain_singleton, outflow_gain_singleton] at *
    linarith [hInv, hb]
  next hpos =>
    have hz : accrue_gains s = 0 :=
      le_antisymm (not_lt.1 hpos) (accrue_gains_nonneg hnn)
    unfold BalInv at hInv ⊢
    rw [get_balance_eq, expected_balance_eq] at *
    rw [get_balance_eq, hz] at hb
    simp only [accrue_bump_state] at *
    linarith [hInv, hb]

theorem accrue_log_nonneg {s : BrokerageAccount} (hnn : nonneg_lots s) :
    nonneg_lots (accrue_log_state s) := by
  have hbump : nonneg_lots (accrue_bump_state s) := by
    intro a ha
    simp only [accrue_bump_state] at ha
    obtain ⟨b, hb, hba⟩ := List.mem_map.1 ha
    have hrr := rate_nonneg b
    have h1 : (0:ℚ) ≤ 1 + b.get_rate_of_return / 100 := by linarith
    rw [← hba]
    exact ⟨(hnn b hb).1, by
      simp only [Asset.accrue_price]
      exact mul_nonneg (hnn b hb).2 h1⟩
  unfold accrue_log_state
  split
  · exact fun a ha => hbump a ha
  · exact hbump

theorem accrue_preserves {s : BrokerageAccount} (hInv : BalInv s)
    (hnn : nonneg_lots s) :
    BalInv (s.accrue).2 ∧ nonneg_lots (s.accrue).2 := by
  rw [accrue_eq]
  exact ⟨accrue_log_inv (accrue_interest_inv hInv) (accrue_interest_nonneg hnn),
    accrue_log_nonneg (accrue_interest_nonneg hnn)⟩

/-! The two rebalancers. -/

/-- A buy that never aborts and keeps the balance identity, lot
nonnegativity, and the total balance itself (balance preservation is what
discharges the closing assertion of `soft_rebalance`). -/
theorem buy_step {s : BrokerageAccount} {shares price : ℚ} (cls : AssetClass)
    (hInv : BalInv s) (hnn : nonneg_lots s) (hsh : 0 ≤ shares) (hpr : 0 ≤ price) :
    res_ok (fun st => (BalInv st ∧ nonneg_lots st) ∧
      st.get_balance = s.get_balance) (s.buy shares price cls) := by
  rw [buy_eq]
  split
  · exact ⟨⟨hInv, hnn⟩, rfl⟩
  · exact ⟨⟨buy_commit_inv hInv shares price cls,
      buy_commit_nonneg hnn cls hsh hpr⟩, buy_commit_balance s shares price cls⟩

/-- The optional buy of one class inside `soft_rebalance`. -/
theorem opt_buy_step (s : BrokerageAccount) (hInv : BalInv s)
    (hnn : nonneg_lots s) (x : ℚ) (cls : AssetClass) :
    res_ok (fun st => (BalInv st ∧ nonneg_lots st) ∧
        st.get_balance = s.get_balance)
      (if 0 < x then s.buy 10 (x / 10) cls else .ok 0 s) := by
  split
  next hc =>
    exact buy_step cls hInv hnn (by norm_num)
      (div_nonneg (le_of_lt hc) (by norm_num))
  next => exact ⟨⟨hInv, hnn⟩, rfl⟩

theorem soft_preserves {s : BrokerageAccount} (te tc : ℚ) (hInv : BalInv s)
    (hnn : nonneg_lots s) :
    res_ok (fun st => BalInv st ∧ nonneg_lots st) (s.soft_rebalance te tc) := by
  simp only [soft_rebalance]
  split
  · exact ⟨hInv, hnn⟩
  split
  · exact ⟨hInv, hnn⟩
  refine res_ok_bind _ _ (opt_buy_step s hInv hnn _ .Equity)
    (fun st h => h.1) ?_
  intro v s1 _ h1
  refine res_ok_bind _ _ (opt_buy_step s1 h1.1.1 h1.1.2 _ .Bond)
    (fun st h => h.1) ?_
  intro v2 s2 _ h2
  have hbal : |s.get_balance - s2.get_balance| < 0.01 := by
    rw [h2.2, h1.2, sub_self, abs_zero]
    norm_num
  rw [if_neg (not_not_intro hbal)]
  exact h2.1

theorem hard_preserves {s : BrokerageAccount} (te tc : ℚ) (hInv : BalInv s)
    (hnn : nonneg_lots s) :
    res_ok (fun st => BalInv st ∧ nonneg_lots st) (s.hard_rebalance te tc) := by
  simp only [hard_rebalance]
  refine res_ok_bind _ _ (soft_preserves te tc hInv hnn) (fun st h => h) ?_
  intro v s1 _ h1
  split
  next hneed =>
    refine res_ok_bind _ _ (sell_preserves _ AssetClass.Equity h1.1 h1.2)
      (fun st h => h) ?_
    intro p s2 heq h2
    have hp : 0 ≤ p := by
      rw [sell_ok_val heq]
      linarith [hneed]
    refine res_ok_bind _ _
      (buy_preserves AssetClass.Bond h2.1 h2.2 (div_nonneg hp (by norm_num))
        (div_nonneg hp (by norm_num))) (fun st h => h) ?_
    intro v3 s3 _ h3
    exact h3
  next =>
    split
    next hneed =>
      refine res_ok_bind _ _ (sell_preserves _ AssetClass.Bond h1.1 h1.2)
        (fun st h => h) ?_
      intro p s2 heq h2
      have hp : 0 ≤ p := by
        rw [sell_ok_val heq]
        linarith [hneed]
      refine res_ok_bind _ _
        (buy_preserves AssetClass.Equity h2.1 h2.2
          (div_nonneg hp (by norm_num)) (div_nonneg hp (by norm_num)))
        (fun st h => h) ?_
      intro v3 s3 _ h3
      exact h3
    next => exact h1

end BrokerageAccount

open BrokerageAccount

theorem post_state_of_res_ok {ε α : Type} {P : BrokerageAccount → Prop}
    {r : Res ε α} (h : res_ok P r) :
    ∃ s1, post_state r = some s1 ∧ P s1 := by
  cases r with
  | fatal => exact h.elim
  | err e st => exact ⟨st, rfl, h⟩
  | ok v st => exact ⟨st, rfl, h⟩

/-- A fresh account satisfies the exact balance identity. -/
theorem new_inv (n : String) (b r : ℚ) : BalInv (new n b r) := by
  unfold BalInv new
  rw [get_balance_eq, expected_balance_eq]
  simp

theorem new_nonneg (n : String) (b r : ℚ) : nonneg_lots (new n b r) := by
  intro a ha
  simp [new] at ha

/-- One valid call neither aborts nor breaks the invariant pair. -/
theorem apply_op_preserves {s : BrokerageAccount} {op : Op} (hInv : BalInv s)
    (hnn : nonneg_lots s) (hv : valid_op op = true) :
    ∃ s1, apply_op s op = some s1 ∧ BalInv s1 ∧ nonneg_lots s1 := by
  cases op with
  | dep a => exact post_state_of_res_ok (deposit_preserves a hInv hnn)
  | wd a => exact post_state_of_res_ok (withdraw_preserves a hInv hnn)
  | buyOp sh p c =>
    simp only [valid_op, decide_eq_true_eq] at hv
    exact post_state_of_res_ok (buy_preserves c hInv hnn hv.1 hv.2)
  | sellOp a c => exact post_state_of_res_ok (sell_preserves a c hInv hnn)
  | accrueOp => exact ⟨(s.accrue).2, rfl, accrue_preserves hInv hnn⟩
  | softOp te tc => exact post_state_of_res_ok (soft_preserves te tc hInv hnn)
  | hardOp te tc => exact post_state_of_res_ok (hard_preserves te tc hInv hnn)

/-- Any sequence of valid calls runs to completion and keeps the exact
balance identity and lot nonnegativity. -/
theorem run_ops_preserves :
    ∀ (ops : List Op) (s : BrokerageAccount), BalInv s → nonneg_lots s →
      (∀ op ∈ ops, valid_op op = true) →
      ∃ s1, run_ops s ops = some s1 ∧ BalInv s1 ∧ nonneg_lots s1
  | [], s, hInv, hnn, _ => ⟨s, rfl, hInv, hnn⟩
  | op :: rest, s, hInv, hnn, hv => by
    obtain ⟨s1, h1, hInv1, hnn1⟩ :=
      apply_op_preserves hInv hnn (hv op (List.mem_cons_self op rest))
    obtain ⟨s2, h2, hInv2, hnn2⟩ := run_ops_preserves rest s1 hInv1 hnn1
      (fun o ho => hv o (List.mem_cons_of_mem op ho))
    exact ⟨s2, by simp [run_ops, h1, h2], hInv2, hnn2⟩

/-! Verification of the specified claims. -/

theorem foldl_gains (l : List (Asset × ℚ)) (c : ℚ) :
    l.foldl (fun acc p =>
        acc + p.2 * (p.1.current_price - p.1.cost_basis / p.1.shares)) c
      = c + (l.map (fun p =>
          p.2 * (p.1.current_price - p.1.cost_basis / p.1.shares))).sum := by
  induction l generalizing c with
  | nil => simp
  | cons a l ih => simp [List.foldl_cons, ih]; ring

/-- C7: for every list of (lot, shares_sold) pairs, the capital-gains tax is
exactly `max(0, 0.15 * Σ shares_sold * (current_price - cost_basis / shares))`;
losses offset gains inside the one sum, and an aggregate net loss (a
nonpositive sum) yields a tax of exactly zero. -/
theorem C7_cap_gains_tax_formula (l : List (Asset × ℚ)) :
    BrokerageAccount.calc_cap_gains_tax l
      = max 0 (0.15 * (l.map (fun p =>
          p.2 * (p.1.current_price - p.1.cost_basis / p.1.shares))).sum) ∧
    ((l.map (fun p =>
        p.2 * (p.1.current_price - p.1.cost_basis / p.1.shares))).sum ≤ 0 →
      BrokerageAccount.calc_cap_gains_tax l = 0) := by
  have hmain : BrokerageAccount.calc_cap_gains_tax l
      = max 0 (0.15 * (l.map (fun p =>
          p.2 * (p.1.current_price - p.1.cost_basis / p.1.shares))).sum) := by
    unfold BrokerageAccount.calc_cap_gains_tax
    rw [foldl_gains, zero_add, mul_comm, max_comm]
  refine ⟨hmain, fun hle => ?_⟩
  rw [hmain, max_eq_left]
  nlinarith [hle]

/-- Witness for C7 at a concrete loss-making entry: one lot bought for 2,
now worth 1, sold whole; the net gain is negative and the tax is zero. -/
theorem C7_cap_gains_tax_formula_witness :
    BrokerageAccount.calc_cap_gains_tax
      [(⟨"STK", 1, 2, 1, .Equity⟩, 1)] = 0 :=
  (C7_cap_gains_tax_formula [(⟨"STK", 1, 2, 1, .Equity⟩, 1)]).2 (by norm_num)

/-- C9: for a buy of `shares > 0` at `price > 0`, the call fails with
`InsufficientFunds { requested := price * shares, available := cash }`
exactly when the cash balance is within the 0.001 tolerance of the amount or
below it (so a buy of exactly the whole cash balance fails), the failing
call returns the account unchanged, and above the tolerance the buy
succeeds. -/
theorem C9_buy_insufficient_funds_iff (s : BrokerageAccount)
    (shares price : ℚ) (cls : AssetClass) (hsh : 0 < shares)
    (hpr : 0 < price) :
    (s.buy shares price cls =
        .err (.InsufficientFunds (price * shares) s.cash_balance) s
      ↔ s.cash_balance ≤ price * shares + 0.001) ∧
    (price * shares + 0.001 < s.cash_balance →
      s.buy shares price cls =
        .ok (price * shares) (BrokerageAccount.buy_commit s shares price cls)) := by
  have hcond : (!s.has_enough_cash (price * shares)) = true
      ↔ s.cash_balance ≤ price * shares + 0.001 := by
    simp [BrokerageAccount.has_enough_cash, BrokerageAccount.get_cash_balance]
    constructor
    · intro h
      linarith [h]
    · intro h
      linarith [h]
  constructor
  · constructor
    · intro h
      by_contra hc
      push_neg at hc
      rw [BrokerageAccount.buy_eq,
        if_neg (by rw [hcond]; exact not_le.2 hc)] at h
      exact absurd h (by simp)
    · intro h
      rw [BrokerageAccount.buy_eq, if_pos (hcond.2 h)]
      rfl
  · intro h
    rw [BrokerageAccount.buy_eq, if_neg (by rw [hcond]; exact not_le.2 h)]

/-- Witness for C9: an account holding exactly 10 in cash cannot buy 2
shares at 5 (an amount equal to the cash balance is inside the tolerance),
and the error carries requested = 10, available = 10 with the state
unchanged. -/
theorem C9_buy_insufficient_funds_iff_witness :
    (new "w" 10 0).buy 2 5 .Equity =
      .err (.InsufficientFunds (5 * 2) (new "w" 10 0).cash_balance)
        (new "w" 10 0) :=
  (C9_buy_insufficient_funds_iff (new "w" 10 0) 2 5 .Equity (by norm_num)
    (by norm_num)).1.2 (by norm_num [new])

/-- C6: a successful buy of `shares > 0` at `price > 0` returns
`shares * price`, debits cash by exactly `shares * price`, appends exactly
one new lot of value and cost basis `shares * price` leaving every existing
lot untouched, and keeps the total balance exactly (hence within the claimed
0.01). -/
theorem C6_buy_effects (s st : BrokerageAccount) (shares price v : ℚ)
    (cls : AssetClass) (hsh : 0 < shares) (hpr : 0 < price)
    (h : s.buy shares price cls = .ok v st) :
    v = shares * price ∧
    st.cash_balance = s.cash_balance - shares * price ∧
    st.assets = s.assets ++
      [{ symbol := BrokerageAccount.symbol_of cls, shares := shares,
         cost_basis := shares * price, current_price := price,
         asset_class := cls }] ∧
    Asset.get_value
      { symbol := BrokerageAccount.symbol_of cls, shares := shares,
        cost_basis := shares * price, current_price := price,
        asset_class := cls } = shares * price ∧
    st.get_balance = s.get_balance ∧
    |st.get_balance - s.get_balance| < 0.01 := by
  rw [BrokerageAccount.buy_eq] at h
  split at h
  · exact absurd h (by simp)
  · have hpair : price * shares = v ∧
        BrokerageAccount.buy_commit s shares price cls = st := by
      injection h with h1 h2
      exact ⟨h1, h2⟩
    have hv : v = price * shares := hpair.1.symm
    have hst : st = BrokerageAccount.buy_commit s shares price cls :=
      hpair.2.symm
    subst hst
    refine ⟨by rw [hv]; ring, ?_, ?_, by simp [Asset.get_value], ?_, ?_⟩
    · show s.cash_balance - price * shares = _
      ring
    · show s.assets ++ _ = _
      rw [mul_comm]
    · exact BrokerageAccount.buy_commit_balance s shares price cls
    · rw [BrokerageAccount.buy_commit_balance s shares price cls]
      norm_num

/-- Witness for C6: buying 2 shares at 3 from a fresh 100 account. -/
theorem C6_buy_effects_witness :
    (BrokerageAccount.buy_commit (new "w" 100 0) 2 3 .Equity).cash_balance
        = (new "w" 100 0).cash_balance - 2 * 3 ∧
    (BrokerageAccount.buy_commit (new "w" 100 0) 2 3 .Equity).get_balance
        = (new "w" 100 0).get_balance := by
  have h := C6_buy_effects (new "w" 100 0) _ 2 3 (3 * 2) .Equity (by norm_num)
    (by norm_num) (by
      rw [BrokerageAccount.buy_eq, if_neg]
      simp [BrokerageAccount.has_enough_cash,
        BrokerageAccount.get_cash_balance, new]
      norm_num)
  exact ⟨h.2.1, h.2.2.2.2.1⟩

/-- C10: the allocation divides each bucket by the total balance with no
zero guard; with a nonzero balance and no lots it is exactly (1, 0, 0), and
an account created with starting balance 0 has total balance 0, so the
computed fractions divide zero by zero (the rational model maps this to 0;
the Rust `f64` produces NaN) and no allocation bound holds there. -/
theorem C10_asset_alloc_zero_guard (s : BrokerageAccount) (n : String)
    (r : ℚ) :
    s.get_asset_alloc = (s.cash_balance / s.get_balance,
      sum_value (s.get_assets_of_type .Equity) / s.get_balance,
      sum_value (s.get_assets_of_type .Bond) / s.get_balance) ∧
    (s.assets = [] → s.get_balance ≠ 0 → s.get_asset_alloc = (1, 0, 0)) ∧
    (new n 0 r).get_balance = 0 ∧ (new n 0 r).assets = [] := by
  refine ⟨rfl, fun ha hb => ?_, rfl, rfl⟩
  have hcash : s.get_balance = s.cash_balance := by
    rw [BrokerageAccount.get_balance_eq, ha]
    simp
  unfold BrokerageAccount.get_asset_alloc
  rw [BrokerageAccount.get_assets_of_type, BrokerageAccount.get_assets_of_type,
    ha]
  simp only [List.filter_nil, sum_value_nil]
  rw [hcash] at hb ⊢
  rw [div_self hb]
  simp

/-- Witness for C10: a fresh account with balance 5 has allocation exactly
(1, 0, 0). -/
theorem C10_asset_alloc_zero_guard_witness :
    (new "x" 5 0).get_asset_alloc = (1, 0, 0) :=
  (C10_asset_alloc_zero_guard (new "x" 5 0) "x" 0).2.1 rfl
    (by rw [show (new "x" 5 0).get_balance = 5 from rfl]; norm_num)

theorem alloc_of_no_assets {s : BrokerageAccount} (ha : s.assets = [])
    (hb : s.cash_balance ≠ 0) : s.get_asset_alloc = (1, 0, 0) := by
  have hcash : s.get_balance = s.cash_balance := by
    rw [BrokerageAccount.get_balance_eq, ha]
    simp
  unfold BrokerageAccount.get_asset_alloc
  rw [BrokerageAccount.get_assets_of_type, BrokerageAccount.get_assets_of_type,
    ha]
  simp only [List.filter_nil, sum_value_nil]
  rw [hcash, div_self hb]
  simp

/-- C8 as stated is false: on an account created with starting balance 0,
`liquidate` returns 0 with an empty lot store, but the allocation divides
zero by zero, so the claimed bound `cash_fraction > 0.95` fails (in the
rational model the fraction is 0; the Rust `f64` quotient is NaN, which
fails the same comparison). -/
theorem C8_zero_balance_counterexample :
    (new "z" 0 0).liquidate.1 = 0 ∧
    ((new "z" 0 0).liquidate.2).assets = [] ∧
    ((new "z" 0 0).liquidate.2).get_asset_alloc.1 = 0 ∧
    ¬ (((new "z" 0 0).liquidate.2).get_asset_alloc.1 > 0.95) := by
  norm_num +decide [liquidate, new, BrokerageAccount.calc_cap_gains_tax,
    BrokerageAccount.get_asset_alloc, BrokerageAccount.get_balance,
    sum_value, BrokerageAccount.get_assets_of_type, List.filter_nil]

/-- C8 amended: `liquidate` always succeeds (the source constructs only
`Ok`), its net proceeds are the total lot value minus the capital-gains tax
over all lots, and it empties the lot store; whenever the post-liquidation
cash balance is nonzero the allocation is exactly (1, 0, 0), which meets
the claimed bounds equity < 0.01, bond < 0.01 and cash > 0.95 — for a zero
post-liquidation balance the fractions are 0/0 and the bounds fail. -/
theorem C8_liquidate_amended (s : BrokerageAccount) :
    (s.liquidate).1 = sum_value s.assets -
      BrokerageAccount.calc_cap_gains_tax
        (s.assets.map (fun a => (a, a.shares))) ∧
    (s.liquidate).2.assets = [] ∧
    ((s.liquidate).2.cash_balance ≠ 0 →
      (s.liquidate).2.get_asset_alloc = (1, 0, 0) ∧
      ((s.liquidate).2.get_asset_alloc).2.1 < 0.01 ∧
      ((s.liquidate).2.get_asset_alloc).2.2 < 0.01 ∧
      ((s.liquidate).2.get_asset_alloc).1 > 0.95) := by
  refine ⟨BrokerageAccount.liquidate_fst s, BrokerageAccount.liquidate_assets s,
    fun hcb => ?_⟩
  have halloc := alloc_of_no_assets (BrokerageAccount.liquidate_assets s) hcb
  rw [halloc]
  norm_num

/-- Witness for C8 amended: liquidating a lotless account with 100 cash. -/
theorem C8_liquidate_amended_witness :
    ((new "w" 100 0).liquidate.2).get_asset_alloc = (1, 0, 0) := by
  have h := (C8_liquidate_amended (new "w" 100 0)).2.2 (by
    rw [BrokerageAccount.liquidate_cash]
    norm_num [new, sum_value, BrokerageAccount.calc_cap_gains_tax])
  exact h.1

/-- C2 as stated is false: the code does not validate buy arguments, and a
buy with a negative price inflates cash while appending a negative-value
lot; the next accrual then moves prices without logging the (negative)
period gains, and `validate_balance` afterwards reports a mismatch.  The
same run fails validation in the Rust original. -/
theorem C2_negative_price_buy_counterexample :
    (run_ops (new "a" 1000 0)
        [Op.buyOp 10 (-10) .Equity, Op.accrueOp]).map
      BrokerageAccount.validate_balance = some false := by
  norm_num +decide [run_ops, apply_op, post_state, BrokerageAccount.buy,
    BrokerageAccount.has_enough_cash, BrokerageAccount.get_cash_balance, new,
    BrokerageAccount.symbol_of, BrokerageAccount.accrue, Asset.accrue_price,
    Asset.get_rate_of_return, Asset.get_value,
    BrokerageAccount.validate_balance, BrokerageAccount.expected_balance,
    BrokerageAccount.total_of_type, BrokerageAccount.txns_total,
    BrokerageAccount.get_balance, sum_value, List.filter_cons,
    List.filter_nil, List.foldl_cons, List.foldl_nil]

/-- C2 amended: for every finite sequence of deposit, withdraw, buy, sell,
accrue, soft_rebalance and hard_rebalance calls — each succeeding or
failing — in which every buy passes nonnegative shares and price (the
documented contract of buy), a freshly created account runs to completion
without aborting, and `validate_balance` afterwards returns Ok; in the
exact rational model the balance identity holds with error 0, well inside
both the 0.015 of the code and the claimed 0.02. -/
theorem C2_validate_balance_amended (n : String) (b r : ℚ) (ops : List Op)
    (hv : ∀ op ∈ ops, valid_op op = true) :
    ∃ s1, run_ops (new n b r) ops = some s1 ∧
      s1.validate_balance = true := by
  obtain ⟨s1, h1, hInv, _⟩ := run_ops_preserves ops (new n b r)
    (new_inv n b r) (new_nonneg n b r) hv
  exact ⟨s1, h1, BrokerageAccount.validate_balance_of_inv hInv⟩

/-- Witness for C2 amended: a mixed sequence of valid calls on a fresh
account. -/
theorem C2_validate_balance_amended_witness :
    ∃ s1, run_ops (new "w" 100 2)
        [Op.dep 50, Op.buyOp 2 10 .Equity, Op.accrueOp, Op.sellOp 5 .Equity,
         Op.wd 3, Op.hardOp 0.5 0.2] = some s1 ∧
      s1.validate_balance = true :=
  C2_validate_balance_amended "w" 100 2 _ (by
    intro op hop
    fin_cases hop <;> simp [valid_op] <;> norm_num)

/-- The Tax total added by a committed sale is exactly its computed tax. -/
theorem sell_commit_tax_delta (s : BrokerageAccount) (amount : ℚ)
    (cls : AssetClass) :
    txns_total (BrokerageAccount.sell_commit s amount cls).transactions .Tax
        - txns_total s.transactions .Tax
      = BrokerageAccount.calc_cap_gains_tax
          (BrokerageAccount.sell_L s amount cls).to_sell := by
  have hnn := calc_cap_gains_tax_nonneg
    (BrokerageAccount.sell_L s amount cls).to_sell
  rw [BrokerageAccount.sell_commit_transactions]
  simp only [BrokerageAccount.txns_total_append]
  rw [BrokerageAccount.txns_total_map_sale
    (fun p : Asset × ℚ => p.2 * p.1.current_price) .Tax (by decide)]
  split
  next h => simp
  next h =>
    have hz : BrokerageAccount.calc_cap_gains_tax
        (BrokerageAccount.sell_L s amount cls).to_sell = 0 := by
      push_neg at h
      linarith
    simp [hz]

/-- C5: a sell that returns Ok on an account with nonnegative total balance
credits cash by exactly `amount` minus the Tax amount debited by the call
(zero when no Tax entry is logged), and the total balance drops by exactly
that Tax. -/
theorem C5_sell_ok_cash_and_balance (s0 st : BrokerageAccount)
    (amount v : ℚ) (cls : AssetClass) (hbal : 0 ≤ s0.get_balance)
    (h : s0.sell amount cls = .ok v st) :
    st.cash_balance = s0.cash_balance + amount -
      (BrokerageAccount.txns_total st.transactions .Tax -
        BrokerageAccount.txns_total s0.transactions .Tax) ∧
    st.get_balance = s0.get_balance -
      (BrokerageAccount.txns_total st.transactions .Tax -
        BrokerageAccount.txns_total s0.transactions .Tax) ∧
    0 ≤ BrokerageAccount.txns_total st.transactions .Tax -
      BrokerageAccount.txns_total s0.transactions .Tax := by
  unfold BrokerageAccount.sell at h
  split at h
  · exact absurd h (by simp)
  · split at h
    · exact absurd h (by simp)
    · next hneg =>
        have h0 : 0 ≤ amount := not_lt.1 hneg
        split at h
        · next hgt =>
            exfalso
            have hpos : (0:ℚ) < amount := lt_of_le_of_lt hbal hgt
            have hcr0 : (BrokerageAccount.sell_L ((s0.liquidate).2) amount
                cls).cash_raised = 0 := by
              simp [BrokerageAccount.sell_L, BrokerageAccount.class_assets,
                BrokerageAccount.liquidate_assets, sort_lots,
                List.insertionSort, sell_loop]
            rw [BrokerageAccount.sell_core_eq, hcr0, if_pos hpos] at h
            split at h <;> simp_all
        · next hgt =>
            rw [BrokerageAccount.sell_core_eq] at h
            by_cases h1 : (BrokerageAccount.sell_L s0 amount cls).cash_raised
                < amount
            · rw [if_pos h1] at h
              split at h <;> simp_all
            · rw [if_neg h1] at h
              by_cases h3 : s0.cash_balance <
                  BrokerageAccount.calc_cap_gains_tax
                    (BrokerageAccount.sell_L s0 amount cls).to_sell
              · rw [if_pos h3] at h
                simp at h
              · rw [if_neg h3] at h
                split at h
                · simp at h
                · have hpair : amount = v ∧
                      BrokerageAccount.sell_commit s0 amount cls = st := by
                    injection h with ha hb
                    exact ⟨ha, hb⟩
                  have hst : st = BrokerageAccount.sell_commit s0 amount cls :=
                    hpair.2.symm
                  subst hst
                  have hdelta := sell_commit_tax_delta s0 amount cls
                  refine ⟨?_, ?_, ?_⟩
                  · rw [hdelta, BrokerageAccount.sell_commit_cash]
                    ring
                  · rw [hdelta,
                      BrokerageAccount.sell_commit_balance s0 cls h0 h1]
                  · rw [hdelta]
                    exact calc_cap_gains_tax_nonneg _

/-- Witness for C5: selling 10 out of an account holding a 20-value lot and
80 cash; no gain, so no tax, cash rises by exactly 10 and the balance is
unchanged. -/
theorem C5_sell_ok_cash_and_balance_witness :
    (BrokerageAccount.sell_commit
        (BrokerageAccount.buy_commit (new "w" 100 0) 2 10 .Equity)
        10 .Equity).cash_balance
      = (BrokerageAccount.buy_commit (new "w" 100 0) 2 10 .Equity).cash_balance
        + 10 -
        (BrokerageAccount.txns_total
            (BrokerageAccount.sell_commit
              (BrokerageAccount.buy_commit (new "w" 100 0) 2 10 .Equity)
              10 .Equity).transactions .Tax -
          BrokerageAccount.txns_total
            (BrokerageAccount.buy_commit
              (new "w" 100 0) 2 10 .Equity).transactions .Tax) := by
  have h := C5_sell_ok_cash_and_balance
    (BrokerageAccount.buy_commit (new "w" 100 0) 2 10 .Equity)
    (BrokerageAccount.sell_commit
      (BrokerageAccount.buy_commit (new "w" 100 0) 2 10 .Equity) 10 .Equity)
    10 10 .Equity
    (by rw [BrokerageAccount.get_balance_eq]
        norm_num [BrokerageAccount.buy_commit, new, sum_value, Asset.get_value])
    (by norm_num +decide [BrokerageAccount.sell, BrokerageAccount.sell_core,
      sell_loop, sort_lots, List.insertionSort, List.orderedInsert, gain_rate,
      BrokerageAccount.liquidate, BrokerageAccount.calc_cap_gains_tax,
      BrokerageAccount.validate_balance, BrokerageAccount.expected_balance,
      BrokerageAccount.total_of_type, BrokerageAccount.txns_total,
      BrokerageAccount.get_balance, sum_value, Asset.get_value, new,
      BrokerageAccount.buy_commit, List.filter_cons, List.filter_nil,
      List.foldl_cons, List.foldl_nil, BrokerageAccount.sell_commit,
      BrokerageAccount.sell_L, BrokerageAccount.class_assets,
      BrokerageAccount.other_assets, BrokerageAccount.sell_restore])
  exact h.1

theorem sum_map_perm (f : Asset → ℚ) {l1 l2 : List Asset} (h : l1.Perm l2) :
    (l1.map f).sum = (l2.map f).sum :=
  List.Perm.sum_eq (List.Perm.map f h)

/-- Per-class totals of any additive lot statistic survive putting the kept
and the drained lots back, provided the two lists carry exactly the
statistic mass of the requested class. -/
theorem filter_stat_restore (s : BrokerageAccount) (cls c : AssetClass)
    (f : Asset → ℚ) (keep sold : List Asset)
    (hkeep : ∀ x ∈ keep, x.asset_class = cls)
    (hsold : ∀ x ∈ sold, x.asset_class = cls)
    (hsum : (keep.map f).sum + (sold.map f).sum
      = ((BrokerageAccount.class_assets s cls).map f).sum) :
    ((((BrokerageAccount.other_assets s cls ++ keep ++ sold).filter
        (fun x => decide (x.asset_class = c))).map f).sum)
      = ((s.assets.filter (fun x => decide (x.asset_class = c))).map f).sum := by
  rcases eq_or_ne c cls with hc | hc
  · subst hc
    rw [List.filter_append, List.filter_append]
    have hother : (BrokerageAccount.other_assets s c).filter
        (fun x => decide (x.asset_class = c)) = [] := by
      rw [List.filter_eq_nil_iff]
      intro x hx
      have := List.of_mem_filter hx
      simp only [Bool.not_eq_true', decide_eq_false_iff_not] at this
      simp [this]
    have hkeepf : keep.filter (fun x => decide (x.asset_class = c)) = keep :=
      List.filter_eq_self.2 (fun x hx => by simp [hkeep x hx])
    have hsoldf : sold.filter (fun x => decide (x.asset_class = c)) = sold :=
      List.filter_eq_self.2 (fun x hx => by simp [hsold x hx])
    rw [hother, hkeepf, hsoldf]
    simpa [BrokerageAccount.class_assets] using hsum
  · rw [List.filter_append, List.filter_append]
    have hkeepf : keep.filter (fun x => decide (x.asset_class = c)) = [] := by
      rw [List.filter_eq_nil_iff]
      intro x hx
      simp [hkeep x hx, hc.symm]
    have hsoldf : sold.filter (fun x => decide (x.asset_class = c)) = [] := by
      rw [List.filter_eq_nil_iff]
      intro x hx
      simp [hsold x hx, hc.symm]
    have hother : (BrokerageAccount.other_assets s cls).filter
          (fun x => decide (x.asset_class = c))
        = s.assets.filter (fun x => decide (x.asset_class = c)) := by
      rw [BrokerageAccount.other_assets, List.filter_filter]
      apply List.filter_congr
      intro x _
      by_cases hx : x.asset_class = c
      · simp [hx, hc]
      · simp [hx]
    rw [hother, hkeepf, hsoldf]
    simp

/-- All candidate lots entering the loop of `sell` carry the requested
class. -/
theorem sorted_class_all (s : BrokerageAccount) (cls : AssetClass) :
    ∀ x ∈ sort_lots (BrokerageAccount.class_assets s cls),
      x.asset_class = cls := by
  intro x hx
  have hx2 := sort_lots_mem.1 hx
  have := List.of_mem_filter hx2
  simpa using this

/-- The state the failing paths of `sell` leave behind preserves, for every
class, the total shares, market value and cost basis of the lot store. -/
theorem sell_restore_class_stats (s : BrokerageAccount) (amount : ℚ)
    (cls c : AssetClass) :
    sum_shares ((BrokerageAccount.sell_restore s amount cls).get_assets_of_type c)
        = sum_shares (s.get_assets_of_type c) ∧
    sum_value ((BrokerageAccount.sell_restore s amount cls).get_assets_of_type c)
        = sum_value (s.get_assets_of_type c) ∧
    sum_cost_basis
        ((BrokerageAccount.sell_restore s amount cls).get_assets_of_type c)
        = sum_cost_basis (s.get_assets_of_type c) := by
  have hclassall := sorted_class_all s cls
  have hclass := sell_loop_class amount cls
    (sort_lots (BrokerageAccount.class_assets s cls)) 0 hclassall
  have hkeep := hclass.1
  have hsold : ∀ x ∈ (BrokerageAccount.sell_L s amount cls).to_sell.map
      Prod.fst, x.asset_class = cls := by
    intro x hx
    obtain ⟨p, hp, hpx⟩ := List.mem_map.1 hx
    rw [← hpx]
    exact hclass.2 p hp
  have hperm := sort_lots_perm (BrokerageAccount.class_assets s cls)
  refine ⟨?_, ?_, ?_⟩
  · exact filter_stat_restore s cls c Asset.shares _ _ hkeep hsold (by
      have hsum := sell_loop_shares amount
        (sort_lots (BrokerageAccount.class_assets s cls)) 0
      have hp := sum_map_perm Asset.shares hperm
      simp only [sum_shares] at hsum
      rw [← hp]
      exact hsum)
  · exact filter_stat_restore s cls c Asset.get_value _ _ hkeep hsold (by
      simp only [BrokerageAccount.sell_L]
      have hkeepv := sell_loop_value amount
        (sort_lots (BrokerageAccount.class_assets s cls)) 0
      have hsoldv := sell_loop_sold_value amount
        (sort_lots (BrokerageAccount.class_assets s cls)) 0
      have hp2 := sum_map_perm Asset.get_value hperm
      simp only [sum_value] at hkeepv hsoldv
      rw [← hp2]
      linarith [hkeepv, hsoldv])
  · exact filter_stat_restore s cls c Asset.cost_basis _ _ hkeep hsold (by
      have hsum := sell_loop_cost_basis amount
        (sort_lots (BrokerageAccount.class_assets s cls)) 0
      have hp := sum_map_perm Asset.cost_basis hperm
      simp only [sum_cost_basis] at hsum
      rw [← hp]
      exact hsum)

/-- C1 as stated is false: a sell for more than the total balance first
liquidates the whole account, and when it then fails with
InsufficientFunds the liquidation persists — here cash went from 50 to 100
and the one equity lot is gone. -/
theorem C1_liquidate_counterexample :
    (BrokerageAccount.buy_commit (new "c1" 100 0) 1 50 .Equity).sell 200 .Bond
      = .err (.InsufficientFunds 200 0)
        ⟨"c1", 100, 100, 0, [],
          [⟨.Purchase, 50⟩, ⟨.Sale, 50⟩]⟩ ∧
    (BrokerageAccount.buy_commit (new "c1" 100 0) 1 50 .Equity).cash_balance
      = 50 ∧
    (BrokerageAccount.buy_commit (new "c1" 100 0) 1 50 .Equity).assets ≠ [] := by
  refine ⟨?_, by norm_num [BrokerageAccount.buy_commit, new], by
    norm_num [BrokerageAccount.buy_commit, new]⟩
  norm_num +decide [BrokerageAccount.sell, BrokerageAccount.sell_core,
    sell_loop, sort_lots, List.insertionSort, List.orderedInsert, gain_rate,
    BrokerageAccount.liquidate, BrokerageAccount.calc_cap_gains_tax,
    BrokerageAccount.validate_balance, BrokerageAccount.expected_balance,
    BrokerageAccount.total_of_type, BrokerageAccount.txns_total,
    BrokerageAccount.get_balance, sum_value, Asset.get_value, new,
    BrokerageAccount.buy_commit, List.filter_cons, List.filter_nil,
    List.foldl_cons, List.foldl_nil]

/-- C1 amended: a sell whose requested amount does not exceed the pre-call
total balance and which fails with InsufficientFunds leaves the cash
balance and the transaction ledger unchanged (no tax debit persists) and
preserves, for every asset class, the total shares, total market value and
total cost basis of the lot store; the lot multiset itself may differ only
in that a split lot is restored as two lots with pro-rated cost bases. -/
theorem C1_insufficient_sell_amended (s0 st : BrokerageAccount)
    (amount r a : ℚ) (cls : AssetClass)
    (hle : amount ≤ s0.get_balance)
    (h : s0.sell amount cls = .err (.InsufficientFunds r a) st) :
    st.cash_balance = s0.cash_balance ∧
    st.transactions = s0.transactions ∧
    ∀ c : AssetClass,
      sum_shares (st.get_assets_of_type c)
          = sum_shares (s0.get_assets_of_type c) ∧
      sum_value (st.get_assets_of_type c)
          = sum_value (s0.get_assets_of_type c) ∧
      sum_cost_basis (st.get_assets_of_type c)
          = sum_cost_basis (s0.get_assets_of_type c) := by
  unfold BrokerageAccount.sell at h
  split at h
  · exact absurd h (by simp)
  · split at h
    · simp at h
    · split at h
      · next hgt => exact absurd hgt (not_lt.2 hle)
      · rw [BrokerageAccount.sell_core_eq] at h
        have hrest : st = BrokerageAccount.sell_restore s0 amount cls := by
          by_cases h1 : (BrokerageAccount.sell_L s0 amount cls).cash_raised
              < amount
          · rw [if_pos h1] at h
            split at h
            · simp at h
            · injection h with ha hb
              exact hb.symm
          · rw [if_neg h1] at h
            by_cases h3 : s0.cash_balance <
                BrokerageAccount.calc_cap_gains_tax
                  (BrokerageAccount.sell_L s0 amount cls).to_sell
            · rw [if_pos h3] at h
              injection h with ha hb
              exact hb.symm
            · rw [if_neg h3] at h
              split at h <;> simp at h
        subst hrest
        exact ⟨rfl, rfl, fun c => sell_restore_class_stats s0 amount cls c⟩

/-- Witness for C1 amended: selling 50 of Equity from a lotless account with
100 cash fails with InsufficientFunds and changes nothing. -/
theorem C1_insufficient_sell_amended_witness :
    (BrokerageAccount.sell_restore (new "w" 100 0) 50 .Equity).cash_balance
        = (new "w" 100 0).cash_balance ∧
    (BrokerageAccount.sell_restore (new "w" 100 0) 50 .Equity).transactions
        = (new "w" 100 0).transactions := by
  have h := C1_insufficient_sell_amended (new "w" 100 0)
    (BrokerageAccount.sell_restore (new "w" 100 0) 50 .Equity) 50 50 0 .Equity
    (by rw [show (new "w" 100 0).get_balance = 100 from rfl]; norm_num)
    (by norm_num +decide [BrokerageAccount.sell, BrokerageAccount.sell_core,
      sell_loop, sort_lots, List.insertionSort, List.orderedInsert, gain_rate,
      BrokerageAccount.liquidate, BrokerageAccount.calc_cap_gains_tax,
      BrokerageAccount.validate_balance, BrokerageAccount.expected_balance,
      BrokerageAccount.total_of_type, BrokerageAccount.txns_total,
      BrokerageAccount.get_balance, sum_value, Asset.get_value, new,
      List.filter_cons, List.filter_nil, List.foldl_cons, List.foldl_nil,
      BrokerageAccount.sell_restore, BrokerageAccount.sell_L,
      BrokerageAccount.class_assets, BrokerageAccount.other_assets])
  exact ⟨h.1, h.2.1⟩

/-- A one-share lot: per-share gain ratio `(10 - 5)/5 = 1`, total-cost-basis
gain rate `(10 - 5)/5 = 1`. -/
def c3_A : Asset := ⟨"A", 1, 5, 10, .Equity⟩

/-- A three-share lot: per-share cost `4`, per-share gain ratio
`(10 - 4)/4 = 3/2`, but total-cost-basis gain rate `(10 - 12)/12 = -1/6`. -/
def c3_B : Asset := ⟨"B", 3, 12, 10, .Equity⟩

/-- An account holding the two lots and 60 cash; its balance 100 matches its
starting balance, so the entry validation of `sell` passes. -/
def c3_state : BrokerageAccount := ⟨"c3", 100, 60, 0, [c3_A, c3_B], []⟩

/-- The state `sell 10 Equity` leaves: one share of lot B sold (cost basis
pro-rated to 4, taxed 0.9 on the 6 gain), lot A untouched. -/
def c3_after : BrokerageAccount :=
  ⟨"c3", 100, 691/10, 0, [⟨"B", 2, 8, 10, .Equity⟩, c3_A],
    [⟨.Tax, 9/10⟩, ⟨.Sale, 10⟩]⟩

/-- C3 as stated is false: the sort key of `sell` is the gain rate over the
TOTAL cost basis of the lot, `(current_price - cost_basis) / cost_basis`, not
the per-share ratio of the spec.  Here both lots are Equity candidates, lot A
has the strictly smaller per-share gain ratio (1 versus 3/2), yet the call
`sell 10 Equity` sells one share out of lot B and no share of A: A survives
in the lot store unchanged while B was split and partially sold. -/
theorem C3_per_share_order_counterexample :
    spec_per_share_gain_ratio c3_A < spec_per_share_gain_ratio c3_B ∧
    c3_A ∈ BrokerageAccount.class_assets c3_state .Equity ∧
    c3_B ∈ BrokerageAccount.class_assets c3_state .Equity ∧
    (BrokerageAccount.sell_L c3_state 10 .Equity).to_sell
      = [(⟨"B", 1, 4, 10, .Equity⟩, 1)] ∧
    c3_state.sell 10 .Equity = .ok 10 c3_after ∧
    c3_A ∈ c3_after.assets := by
  refine ⟨by norm_num [spec_per_share_gain_ratio, c3_A, c3_B], ?_, ?_, ?_, ?_,
    by simp [c3_after]⟩
  · simp +decide [BrokerageAccount.class_assets, c3_state, c3_A, c3_B,
      List.filter_cons, List.filter_nil]
  · simp +decide [BrokerageAccount.class_assets, c3_state, c3_A, c3_B,
      List.filter_cons, List.filter_nil]
  · norm_num +decide [BrokerageAccount.sell_L, BrokerageAccount.class_assets,
      sell_loop, sort_lots, List.insertionSort, List.orderedInsert, gain_rate,
      c3_state, c3_A, c3_B, Asset.get_value, List.filter_cons, List.filter_nil]
  · norm_num +decide [BrokerageAccount.sell, BrokerageAccount.sell_core,
      sell_loop, sort_lots, List.insertionSort, List.orderedInsert, gain_rate,
      BrokerageAccount.liquidate, BrokerageAccount.calc_cap_gains_tax,
      BrokerageAccount.validate_balance, BrokerageAccount.expected_balance,
      BrokerageAccount.total_of_type, BrokerageAccount.txns_total,
      BrokerageAccount.get_balance, sum_value, Asset.get_value,
      c3_state, c3_after, c3_A, c3_B, max_def,
      List.filter_cons, List.filter_nil, List.foldl_cons, List.foldl_nil]

/-- C3 amended: the candidate lots of the requested class are consumed in
ascending order of the total-cost-basis gain rate
`(current_price - cost_basis) / cost_basis`: the loop of `sell` runs over the
candidate list sorted ascending by that key, the lots it sells whole form a
prefix of that sorted list, at most one further lot (the next one) is split,
and everything after the split point is kept untouched. -/
theorem C3_sale_order_amended (s : BrokerageAccount) (amount : ℚ)
    (cls : AssetClass) :
    (sort_lots (BrokerageAccount.class_assets s cls)).Sorted
      (fun a b => gain_rate a ≤ gain_rate b) ∧
    ∃ k, k ≤ (sort_lots (BrokerageAccount.class_assets s cls)).length ∧
      ∃ sp kp,
        (BrokerageAccount.sell_L s amount cls).to_sell
          = ((sort_lots (BrokerageAccount.class_assets s cls)).take k).map
              (fun a => (a, a.shares)) ++ sp ∧
        (BrokerageAccount.sell_L s amount cls).to_keep
          = kp ++ (sort_lots (BrokerageAccount.class_assets s cls)).drop
              (k + sp.length) ∧
        sp.length ≤ 1 ∧ kp.length = sp.length ∧
        (∀ p ∈ sp, ∀ q ∈ kp, ∃ x rest2,
          (sort_lots (BrokerageAccount.class_assets s cls)).drop k
              = x :: rest2 ∧
          p.1.asset_class = x.asset_class ∧
          p.1.current_price = x.current_price ∧
          p.1.shares + q.shares = x.shares ∧ p.2 = p.1.shares) :=
  ⟨sort_lots_sorted _,
    sell_loop_prefix amount (sort_lots (BrokerageAccount.class_assets s cls)) 0⟩

/-- An account with 100 cash and one 10-share equity lot at price 10 (no
unrealized gain); balance 200 equals the starting balance. -/
def c4_state : BrokerageAccount :=
  ⟨"c4", 200, 100, 0, [⟨"STK", 10, 100, 10, .Equity⟩], []⟩

/-- `c4_state` after the corrective `sell 50 Equity` of `hard_rebalance`:
half the lot sold, no tax (no gain), proceeds 50 credited. -/
def c4_mid : BrokerageAccount :=
  ⟨"c4", 200, 150, 0, [⟨"STK", 5, 50, 10, .Equity⟩], [⟨.Sale, 50⟩]⟩

/-- `c4_mid` after the corrective buy `buy(proceeds/10, proceeds/10, Bond)`:
only `5 * 5 = 25` dollars of bonds bought from the 50 of proceeds. -/
def c4_final : BrokerageAccount :=
  ⟨"c4", 200, 125, 0,
    [⟨"STK", 5, 50, 10, .Equity⟩, ⟨"BND", 5, 25, 5, .Bond⟩],
    [⟨.Sale, 50⟩, ⟨.Purchase, 25⟩]⟩

/-- C4 describes the intent, but the code diverges: the corrective buy passes
`proceeds/10.0` as BOTH the share count and the price, so it spends
`proceeds^2/100`, not `proceeds`.  On `c4_state`, `hard_rebalance(1/4, 3/4)`
finds equity 50 over target after a no-op soft rebalance, sells exactly 50 of
equity (the Sale ledger entry), then buys only 25 dollars of bonds (the
Purchase ledger entry): the corrective buy amount 25 differs from the sale
proceeds 50, and 25 of the account sits in neither class targeted. -/
theorem C4_hard_rebalance_eval :
    c4_state.hard_rebalance (1/4) (3/4) = .ok (5/8, 1/4, 1/8) c4_final ∧
    c4_state.sell 50 .Equity = .ok 50 c4_mid ∧
    c4_mid.buy (50/10) (50/10) .Bond = .ok 25 c4_final ∧
    (25 : ℚ) ≠ 50 := by
  have hsell : c4_state.sell 50 .Equity = .ok 50 c4_mid := by
    norm_num +decide [BrokerageAccount.sell, BrokerageAccount.sell_core,
      sell_loop, sort_lots, List.insertionSort, List.orderedInsert, gain_rate,
      BrokerageAccount.liquidate, BrokerageAccount.calc_cap_gains_tax,
      BrokerageAccount.validate_balance, BrokerageAccount.expected_balance,
      BrokerageAccount.total_of_type, BrokerageAccount.txns_total,
      BrokerageAccount.get_balance, sum_value, Asset.get_value,
      c4_state, c4_mid, max_def,
      List.filter_cons, List.filter_nil, List.foldl_cons, List.foldl_nil]
  have hbuy : c4_mid.buy 5 5 .Bond = .ok 25 c4_final := by
    norm_num +decide [BrokerageAccount.buy, BrokerageAccount.has_enough_cash,
      BrokerageAccount.get_cash_balance, BrokerageAccount.symbol_of,
      c4_mid, c4_final]
  have hsoft : c4_state.soft_rebalance (1/4) (3/4)
      = .ok (1/2, 1/2, 0) c4_state := by
    norm_num +decide [BrokerageAccount.soft_rebalance,
      BrokerageAccount.get_balance, BrokerageAccount.get_asset_alloc,
      BrokerageAccount.get_assets_of_type, sum_value, Asset.get_value,
      res_bind, c4_state,
      List.filter_cons, List.filter_nil, List.foldl_cons, List.foldl_nil]
  have hbal : c4_state.get_balance = 200 := by
    norm_num [BrokerageAccount.get_balance, c4_state,
      List.foldl_cons, List.foldl_nil]
  have halloc : c4_state.get_asset_alloc = (1/2, 1/2, 0) := by
    norm_num +decide [BrokerageAccount.get_asset_alloc,
      BrokerageAccount.get_assets_of_type, BrokerageAccount.get_balance,
      sum_value, Asset.get_value, c4_state,
      List.filter_cons, List.filter_nil, List.foldl_cons, List.foldl_nil]
  refine ⟨?_, hsell, ?_, by norm_num⟩
  · rw [BrokerageAccount.hard_rebalance, hsoft]
    simp only [res_bind]
    norm_num [hbal, halloc]
    rw [hsell]
    norm_num
    rw [hbuy]
    norm_num +decide [BrokerageAccount.get_asset_alloc,
      BrokerageAccount.get_assets_of_type, BrokerageAccount.get_balance,
      sum_value, Asset.get_value, c4_final,
      List.filter_cons, List.filter_nil, List.foldl_cons, List.foldl_nil]
  · have h510 : ((50 : ℚ) / 10) = 5 := by norm_num
    rw [h510]
    exact hbuy

end Bank
